import Mathlib

/-! # Emperor2 PuckCollect: trajectory engine and motor driver

A shallow embedding of `include/DriveTrain/DriveTrain.h` (the trajectory
execution engine) and `include/drivers/DcMotor.h` (the expansion controller
and the motor driver), followed by the properties proved about them.

Conventions of the embedding:

* global and member variables become fields of explicit state records, and
  every function returns the new state;
* calls into collaborators that the two headers only use (the maneuver
  objects, the bus transport) are recorded in a log kept in the state, so that
  "which call was made, how often and in which order" can be stated;
* machine integers are `Int`/`Nat` with explicit wrap-around at the width of
  the C++ type;
* a finite `float` is a rational number, and `float` arithmetic is the exact
  operation followed by a rounding that is kept abstract (`FloatModel`).
-/

namespace DriveTrain

/-! ## Collaborators of the engine -/

/-- A handle on a maneuver object: the queue stores `DriveSample *`. -/
abbrev Ptr := Nat

/-- One call made by the engine on a maneuver object. `execute p ans` is a
call of `p->Execute()` that returned `ans`; `delete p` is `delete p`. -/
inductive Call where
  | resetPd (p : Ptr)
  | start (p : Ptr)
  | execute (p : Ptr) (ans : Bool)
  | delete (p : Ptr)
deriving DecidableEq, Repr

/-- The maneuver object a call is made on. -/
def Call.target : Call → Ptr
  | .resetPd p => p
  | .start p => p
  | .execute p _ => p
  | .delete p => p

/-- Modelled from the spec: `DriveTrain/DriveSamples.h` is not part of the
sources. The spec describes a maneuver as a polymorphic action with
`ResetPd`, `Start` and `Execute → bool`; what the virtual methods do is left
open, so they are arbitrary functions on the state `W` that the maneuvers
own (their own fields, the regulators, the motors). -/
structure DriveSamples (W : Type) where
  ResetPd : Ptr → W → W
  Start : Ptr → W → W
  Execute : Ptr → W → Bool × W
  destroy : Ptr → W → W

/-- Modelled from the spec: `utils/Queue.h` is not part of the sources. The
spec describes the trajectory queue as an ordered FIFO sequence whose front
is the active maneuver. -/
structure Queue (α : Type) where
  items : List α
deriving DecidableEq, Repr

namespace Queue

variable {α : Type}

def isEmpty (q : Queue α) : Bool := q.items.isEmpty

def enqueue (q : Queue α) (x : α) : Queue α := ⟨q.items ++ [x]⟩

/-- The front element; `none` stands for the undefined read of an empty
queue, which the engine guards against with `isEmpty`. -/
def front (q : Queue α) : Option α := q.items.head?

/-- The front element together with the queue without it. -/
def frontAndDequeue (q : Queue α) : Option (α × Queue α) :=
  match q.items with
  | [] => none
  | x :: rest => some (x, ⟨rest⟩)

end Queue

/-- Modelled from the spec: `utils/ElapsedTime.h` is not part of the sources.
The spec only names it as the engine's timer; the model keeps the clock
reading taken by the last `reset()`. -/
structure ElapseTime where
  startTime : Nat
deriving DecidableEq, Repr

/-- The member `ElapseTime::reset()`, with `now` the clock reading it takes. -/
def ElapseTime.reset (_t : ElapseTime) (now : Nat) : ElapseTime := ⟨now⟩

/-! ## The engine state -/

/-- The globals `_trajectory` and `_Timer`, the state `world` owned by the
maneuver objects, and the log `calls` of the calls made on them so far. -/
structure Engine (W : Type) where
  _trajectory : Queue Ptr
  _Timer : ElapseTime
  world : W
  calls : List Call

variable {W : Type}

/-- The call `p->ResetPd()`. -/
def callResetPd (D : DriveSamples W) (p : Ptr) (s : Engine W) : Engine W :=
  { s with world := D.ResetPd p s.world, calls := s.calls ++ [Call.resetPd p] }

/-- The call `p->Start()`. -/
def callStart (D : DriveSamples W) (p : Ptr) (s : Engine W) : Engine W :=
  { s with world := D.Start p s.world, calls := s.calls ++ [Call.start p] }

/-- The call `p->Execute()`, returning its answer. -/
def callExecute (D : DriveSamples W) (p : Ptr) (s : Engine W) : Bool × Engine W :=
  let r := D.Execute p s.world
  (r.1, { s with world := r.2, calls := s.calls ++ [Call.execute p r.1] })

/-- The statement `delete p`. -/
def callDelete (D : DriveSamples W) (p : Ptr) (s : Engine W) : Engine W :=
  { s with world := D.destroy p s.world, calls := s.calls ++ [Call.delete p] }

/-- The two statements `front()->ResetPd(); front()->Start();` under the guard
`if (!_trajectory.isEmpty())`. -/
def startFront (D : DriveSamples W) (s : Engine W) : Engine W :=
  if !s._trajectory.isEmpty then
    match s._trajectory.front with
    | some p => callStart D p (callResetPd D p s)
    | none => s
  else s

/-- The function `driveTrainStart()`; `now` is the clock reading `_Timer.reset()` takes. -/
def driveTrainStart (D : DriveSamples W) (now : Nat) (s : Engine W) : Engine W :=
  let s := { s with _Timer := s._Timer.reset now }
  startFront D s

/-- The function `driveTrainUpdate()`. -/
def driveTrainUpdate (D : DriveSamples W) (s : Engine W) : Engine W :=
  if s._trajectory.isEmpty then s
  else
    match s._trajectory.front with
    | none => s
    | some p =>
      let r := callExecute D p s
      let E_Ans := r.1
      let s := r.2
      if E_Ans then
        match s._trajectory.frontAndDequeue with
        | none => s
        | some (d, q) =>
          let s := callDelete D d { s with _trajectory := q }
          startFront D s
      else s

/-- One `driveTrainStart` call followed by `n` `driveTrainUpdate` calls. -/
def run (D : DriveSamples W) (now : Nat) (n : Nat) (s : Engine W) : Engine W :=
  (driveTrainUpdate D)^[n] (driveTrainStart D now s)

/-- The calls of a log that were made on the maneuver `p`, in order. -/
def callsOn (p : Ptr) (log : List Call) : List Call :=
  log.filter (fun c => c.target == p)

/-- The calls a maneuver that ran to completion received: reset, start, `m`
unfinished `Execute` calls, the finishing one, and its destruction. -/
def doneBlock (pm : Ptr × Nat) : List Call :=
  [Call.resetPd pm.1, Call.start pm.1] ++ List.replicate pm.2 (Call.execute pm.1 false)
    ++ [Call.execute pm.1 true, Call.delete pm.1]

/-- The calls the maneuver at the front of the queue received so far. -/
def frontBlock (q : List Ptr) (m : Nat) : List Call :=
  match q with
  | [] => []
  | p :: _ => [Call.resetPd p, Call.start p] ++ List.replicate m (Call.execute p false)

/-- The shape of the call log of a run that started with queue `q0` and log
`c0`: the blocks of the maneuvers that
ran to completion, in queue order, followed by the block of the front. -/
def RunShape (q0 : List Ptr) (c0 : List Call) (s : Engine W) : Prop :=
  ∃ (done : List (Ptr × Nat)) (m : Nat),
    q0 = done.map Prod.fst ++ s._trajectory.items ∧
    s.calls = c0 ++ done.flatMap doneBlock ++ frontBlock s._trajectory.items m

/-- A concrete family of maneuvers for evaluating the engine: the state is a
countdown, `Start` of maneuver `p` loads it with `p`, and `Execute` counts
down and answers true when the countdown has run out. -/
def countdownSamples : DriveSamples Nat where
  ResetPd := fun _ w => w
  Start := fun p _ => p
  Execute := fun _ w => (decide (w ≤ 1), w - 1)
  destroy := fun _ w => w

end DriveTrain

/-! ## Arduino core and machine arithmetic used by the motor driver -/

namespace Arduino

/-- The Arduino macro `max(a,b)`, `((a)>(b)?(a):(b))`, at type `float`. -/
def max (a b : ℚ) : ℚ := if a > b then a else b

/-- The Arduino macro `min(a,b)`, `((a)<(b)?(a):(b))`, at type `float`. -/
def min (a b : ℚ) : ℚ := if a < b then a else b

end Arduino

/-- A byte, the value of a `uint8_t`. -/
abbrev Byte := Fin 256

/-- The value of an integer stored in an `int8_t` (two's complement wrap). -/
def toInt8 (n : Int) : Int := (n + 128) % 256 - 128

/-- The value of an integer stored in a `uint8_t`. -/
def toUInt8 (n : Int) : Nat := (n % 256).toNat

/-- The value of an integer stored in an `int32_t` (two's complement wrap). -/
def toInt32 (n : Int) : Int := (n + 2147483648) % 4294967296 - 2147483648

/-- The value of a natural number stored in a `uint32_t`. -/
def toUInt32 (n : Nat) : Nat := n % 4294967296

/-- Subtraction of two `uint32_t` values. -/
def subUInt32 (a b : Nat) : Nat := (toUInt32 a + 4294967296 - toUInt32 b) % 4294967296

/-- Conversion of a finite `float` to an integer: the fractional part is
discarded (truncation toward zero). -/
def truncToInt (x : ℚ) : Int := if 0 ≤ x then ⌊x⌋ else ⌈x⌉

/-- The `float` arithmetic of the target. A finite `float` is a rational
number; the result of an arithmetic operation is the exact result rounded by
`rnd`. Of the rounding only two facts are used: it is monotone, and integers
of magnitude up to `2^24` are representable, hence kept. Requested powers are
finite values: NaN is outside the model. -/
structure FloatModel where
  rnd : ℚ → ℚ
  mono : Monotone rnd
  exact_int : ∀ n : Int, -16777216 ≤ n → n ≤ 16777216 → rnd (n : ℚ) = (n : ℚ)

/-- The `float` product `a * b`. -/
def FloatModel.mul (F : FloatModel) (a b : ℚ) : ℚ := F.rnd (a * b)

/-- Arithmetic without rounding error, an instance of the model. -/
def exactFloat : FloatModel where
  rnd := fun x => x
  mono := fun _ _ h => h
  exact_int := fun _ _ _ => rfl

/-! ## Constants of `DcMotor.h` -/

def MOTOR_BRAKE_MOD : Nat := 0x7D
def MOTOR_SET_POWER_C1 : Nat := 0x40
def MOTOR_SET_POWER_C2 : Nat := 0x41
def EXPANSION_RESET : Nat := 0x27
def EXPANSION_ENABLE : Nat := 0x25
def EXPANSION_RESET_TIME : Nat := 1000
def REQUEST_MOTOR_POSITION_C1 : Nat := 0x49
def REQUEST_MOTOR_POSITION_C2 : Nat := 0x4A
def MOTOR_POSITION_RESET_C1 : Nat := 0x4C
def MOTOR_POSITION_RESET_C2 : Nat := 0x4D
def MOTOR_DELAY : Nat := 1

/-- The enumerators of `ZeroPowerBehavior`. -/
def FLOAT : Bool := false
def BRAKE : Bool := true

/-- The enumerators of `Direction`. -/
def FORWARD : Bool := false
def REVERSE : Bool := true

/-- One call made on the hardware: the bus transport `IWire` (declared in
`MultiWire.h`, which the driver only uses) and the Arduino timing calls.
`millis t` is a call of `millis()` that returned `t`. -/
inductive HwEvent where
  | write8 (addr cmd : Nat)
  | write2x8 (addr reg val : Nat)
  | requestFrom (addr n : Nat)
  | readBytes (n : Nat)
  | delay (ms : Nat)
  | millis (t : Nat)
deriving DecidableEq, Repr

/-- The log of hardware calls, oldest first. -/
abbrev HwLog := List HwEvent

/-! ## `class DcExpansion` -/

structure DcExpansion where
  _enabled : Bool
  _resetTime : Nat
  address : Nat
deriving DecidableEq, Repr

namespace DcExpansion

/-- The constructor `DcExpansion(addr, wir)`. -/
def new (addr : Nat) : DcExpansion :=
  { _enabled := false, _resetTime := 0, address := addr }

/-- The member `DcExpansion::begin()`; `now` is the reading of `millis()`. -/
def begin (e : DcExpansion) (now : Nat) (log : HwLog) : DcExpansion × HwLog :=
  let log := log ++ [HwEvent.write8 e.address EXPANSION_RESET]
  let t := toUInt32 now
  ({ e with _resetTime := t }, log ++ [HwEvent.millis t])

/-- The loop `while (millis() - _resetTime < EXPANSION_RESET_TIME);`. The
successive readings of `millis()` are `clock k`, `clock (k+1)`, ...; the loop
returns the log extended by the readings it took, or `none` when `fuel`
readings did not end it. -/
def waitReset (clock : Nat → Nat) (resetTime : Nat) : Nat → Nat → HwLog → Option HwLog
  | 0, _, _ => none
  | fuel + 1, k, log =>
    let t := toUInt32 (clock k)
    let log := log ++ [HwEvent.millis t]
    if subUInt32 t resetTime < EXPANSION_RESET_TIME then
      waitReset clock resetTime fuel (k + 1) log
    else some log

/-- The log entries of the `millis()` readings `clock k0`, ..., `clock (k0 + j)`. -/
def readings (clock : Nat → Nat) (k0 j : Nat) : HwLog :=
  (List.range (j + 1)).map (fun i => HwEvent.millis (toUInt32 (clock (k0 + i))))

/-- The exit condition of the settle wait at the reading `t`:
`millis() - _resetTime < EXPANSION_RESET_TIME` is false. -/
def settled (resetTime t : Nat) : Prop :=
  EXPANSION_RESET_TIME ≤ subUInt32 (toUInt32 t) resetTime

instance (resetTime t : Nat) : Decidable (settled resetTime t) := by
  unfold settled; infer_instance

/-- The member `DcExpansion::enable()`; `clock` gives the successive readings of
`millis()` during the call. -/
def enable (e : DcExpansion) (clock : Nat → Nat) (fuel : Nat) (log : HwLog) :
    Option (DcExpansion × HwLog) :=
  if e._enabled then some (e, log)
  else
    match waitReset clock e._resetTime fuel 0 log with
    | none => none
    | some log =>
      let log := log ++ [HwEvent.write8 e.address EXPANSION_ENABLE]
      some ({ e with _enabled := true }, log)

/-- The member `DcExpansion::isEnabled()`. -/
def isEnabled (e : DcExpansion) : Bool := e._enabled

end DcExpansion

/-! ## `class DcMotor` -/

/-- The member variables of `DcMotor`; the pointer `_expansion` is replaced
by passing the expansion controller to the member functions. -/
structure DcMotor where
  _channel : Nat
  _motorDirerction : Bool
  _encoderDirection : Bool
  _zeroPowerBehavior : Bool
  _lastPower : Int
  _lastFloatPower : ℚ
  _maxPower : ℚ
  _encoderResetPos : Int

/-- The four bytes `readBytes(buf, 4)` stores in `buf`. -/
structure Buf4 where
  b0 : Byte
  b1 : Byte
  b2 : Byte
  b3 : Byte

namespace DcMotor

/-- The constructor, with its default arguments written out by the caller. -/
def new (channel : Nat) (zeroPowerBehavior motorDirerction encoderDirection : Bool)
    (maxPower : ℚ) : DcMotor :=
  { _channel := channel, _motorDirerction := motorDirerction,
    _encoderDirection := encoderDirection, _zeroPowerBehavior := zeroPowerBehavior,
    _lastPower := 0, _lastFloatPower := 0, _maxPower := maxPower, _encoderResetPos := 0 }

/-- The `uint32_t ticks` assembled from the response bytes. -/
def ticksOf (buf : Buf4) : Nat :=
  let ticks := toUInt32 buf.b0.val
  let ticks := toUInt32 ((ticks * 256) + buf.b1.val)
  let ticks := toUInt32 ((ticks * 256) + buf.b2.val)
  let ticks := toUInt32 ((ticks * 256) + buf.b3.val)
  ticks

/-- The member `DcMotor::readRawCurrentPosition()`; `buf` is the response of the bus. -/
def readRawCurrentPosition (m : DcMotor) (e : DcExpansion) (buf : Buf4) (log : HwLog) :
    Int × HwLog :=
  let log := log ++ [HwEvent.write8 e.address
    (if m._channel = 1 then REQUEST_MOTOR_POSITION_C1 else REQUEST_MOTOR_POSITION_C2)]
  let log := log ++ [HwEvent.requestFrom e.address 4]
  let log := log ++ [HwEvent.readBytes 4]
  let ticks := ticksOf buf
  (toInt32 (toInt32 (ticks : Int) * (if m._encoderDirection then -1 else 1)), log)

def setMaxPower (m : DcMotor) (maxPower : ℚ) : DcMotor := { m with _maxPower := maxPower }

def setZeroPowerBehavior (m : DcMotor) (behavior : Bool) : DcMotor :=
  { m with _zeroPowerBehavior := behavior }

def setDirection (m : DcMotor) (direction : Bool) : DcMotor :=
  { m with _motorDirerction := direction, _encoderDirection := direction }

def setMotorDirection (m : DcMotor) (direction : Bool) : DcMotor :=
  { m with _motorDirerction := direction }

def setEncoderDirection (m : DcMotor) (direction : Bool) : DcMotor :=
  { m with _encoderDirection := direction }

/-- The member `DcMotor::getPower()`. -/
def getPower (m : DcMotor) : ℚ := m._lastFloatPower

/-- The local `int8_t intMaxPower = 100 * _maxPower;` of `writePower`. The
conversion of a `float` outside the range of `int8_t` is undefined in C++; the
model wraps there, and the properties below that depend on the conversion are
stated for `_maxPower` in (0,1], where every conversion is in range. -/
def intMaxPower (F : FloatModel) (m : DcMotor) : Int :=
  toInt8 (truncToInt (F.mul 100 m._maxPower))

/-- The `float` value of `min(intMaxPower, max(-intMaxPower, power * (...)))`
in `writePower`, before its conversion to `int8_t`. -/
def clampedFloat (F : FloatModel) (m : DcMotor) (power : ℚ) : ℚ :=
  Arduino.min (intMaxPower F m : Int)
    (Arduino.max (-(intMaxPower F m) : Int)
      (F.mul power (if m._motorDirerction then -100 else 100)))

/-- The local `int8_t intPower` of `writePower` as first assigned, before the
brake substitution. -/
def clampedPower (F : FloatModel) (m : DcMotor) (power : ℚ) : Int :=
  toInt8 (truncToInt (clampedFloat F m power))

/-- The local `intPower` of `writePower` after
`if (intPower == 0 && _zeroPowerBehavior) intPower = MOTOR_BRAKE_MOD;`. -/
def commandPower (F : FloatModel) (m : DcMotor) (power : ℚ) : Int :=
  let intPower := clampedPower F m power
  if intPower = 0 ∧ m._zeroPowerBehavior = true then toInt8 (MOTOR_BRAKE_MOD : Nat) else intPower

/-- The member `DcMotor::writePower(power)`. -/
def writePower (F : FloatModel) (m : DcMotor) (e : DcExpansion) (power : ℚ) (log : HwLog) :
    DcMotor × HwLog :=
  let m := { m with _lastFloatPower := power }
  let intPower := commandPower F m power
  if intPower ≠ m._lastPower then
    let m := { m with _lastPower := intPower }
    let log := log ++ [HwEvent.write2x8 e.address
      (if m._channel = 1 then MOTOR_SET_POWER_C1 else MOTOR_SET_POWER_C2) (toUInt8 intPower)]
    let log := log ++ [HwEvent.delay MOTOR_DELAY]
    (m, log)
  else (m, log)

/-- The member `DcMotor::readCurrentPosition()`. -/
def readCurrentPosition (m : DcMotor) (e : DcExpansion) (buf : Buf4) (log : HwLog) :
    Int × HwLog :=
  let r := readRawCurrentPosition m e buf log
  (toInt32 (r.1 - m._encoderResetPos), r.2)

/-- The member `DcMotor::writeResetEncoder()`. -/
def writeResetEncoder (m : DcMotor) (e : DcExpansion) (log : HwLog) : DcMotor × HwLog :=
  let log := log ++ [HwEvent.write8 e.address
    (if m._channel = 1 then MOTOR_POSITION_RESET_C1 else MOTOR_POSITION_RESET_C2)]
  let log := log ++ [HwEvent.delay MOTOR_DELAY]
  ({ m with _encoderResetPos := 0 }, log)

/-- The member `DcMotor::softwareEncoderReset()`. -/
def softwareEncoderReset (m : DcMotor) (e : DcExpansion) (buf : Buf4) (log : HwLog) :
    DcMotor × HwLog :=
  let r := readRawCurrentPosition m e buf log
  ({ m with _encoderResetPos := r.1 }, r.2)

/-- The member `DcMotor::begin()`. -/
def begin (m : DcMotor) (e : DcExpansion) (clock : Nat → Nat) (fuel : Nat) (log : HwLog) :
    Option (DcMotor × DcExpansion × HwLog) :=
  match (if !e.isEnabled then e.enable clock fuel log else some (e, log)) with
  | none => none
  | some (e, log) =>
    let r := writeResetEncoder m e log
    some (r.1, e, r.2)

/-- A sequence of `writePower` calls on one motor. -/
def writePowers (F : FloatModel) (e : DcExpansion) :
    List ℚ → DcMotor → HwLog → DcMotor × HwLog
  | [], m, log => (m, log)
  | p :: ps, m, log =>
    let r := writePower F m e p log
    writePowers F e ps r.1 r.2

end DcMotor

/-- The values carried by the power commands of a log, in order. -/
def powerValues : HwLog → List Nat
  | [] => []
  | HwEvent.write2x8 _ reg val :: rest =>
    if reg = MOTOR_SET_POWER_C1 ∨ reg = MOTOR_SET_POWER_C2 then val :: powerValues rest
    else powerValues rest
  | _ :: rest => powerValues rest

/-! ## Further members of the driver, and the formulas of the spec they are compared with -/

def REQUEST_MOTOR_CURRENT_C1 : Nat := 0x54
def REQUEST_MOTOR_CURRENT_C2 : Nat := 0x55

/-- The value of an integer stored in an `int16_t` (two's complement wrap). -/
def toInt16 (n : Int) : Int := (n + 32768) % 65536 - 32768

/-- The value of an integer computed in the type `int` of a target whose
`int` has `intBits` bits. The width is fixed by the toolchain, which is not
part of the sources, so it is a parameter. Signed overflow is undefined in
C++; the model wraps there. -/
def toIntN (intBits : Nat) (n : Int) : Int :=
  (n + 2 ^ (intBits - 1)) % 2 ^ intBits - 2 ^ (intBits - 1)

/-- The `float` quotient `a / b`. -/
def FloatModel.div (F : FloatModel) (a b : ℚ) : ℚ := F.rnd (a / b)

/-- The two bytes `readBytes(buf, 2)` stores in `buf`. -/
structure Buf2 where
  b0 : Byte
  b1 : Byte

namespace DcMotor

/-- The member `DcMotor::readCurrent()`; `buf` is the response of the bus.
The operands `buf[0] * 256 + buf[1]` and the product with the sign are
computed in `int`; the product is converted to `float` for the division. -/
def readCurrent (F : FloatModel) (intBits : Nat) (m : DcMotor) (e : DcExpansion) (buf : Buf2)
    (log : HwLog) : ℚ × HwLog :=
  let log := log ++ [HwEvent.write8 e.address
    (if m._channel = 1 then REQUEST_MOTOR_CURRENT_C1 else REQUEST_MOTOR_CURRENT_C2)]
  let log := log ++ [HwEvent.requestFrom e.address 2]
  let log := log ++ [HwEvent.readBytes 2]
  let raw := toIntN intBits (toIntN intBits ((buf.b0.val : Int) * 256) + (buf.b1.val : Int))
  let signed := toIntN intBits (toInt16 raw * (if m._motorDirerction then -1 else 1))
  (F.div (F.rnd (signed : ℚ)) 1000, log)

end DcMotor

namespace DcExpansion

/-- A number of consecutive `enable()` calls, each with the clock readings
`clock` at its disposal. -/
def enableRepeat (clock : Nat → Nat) (fuel : Nat) :
    Nat → DcExpansion → HwLog → Option (DcExpansion × HwLog)
  | 0, e, log => some (e, log)
  | n + 1, e, log =>
    match e.enable clock fuel log with
    | none => none
    | some r => enableRepeat clock fuel n r.1 r.2

end DcExpansion

/-- Rounding to the nearest integer, halves away from zero. -/
def roundNearest (x : ℚ) : Int := if 0 ≤ x then ⌊x + 1 / 2⌋ else ⌈x - 1 / 2⌉

/-- The mathematical `clamp(x, lo, hi)`. -/
def clamp (x lo hi : ℚ) : ℚ := min hi (max lo x)

/-- The integer power as the spec words it, not taken from the code:
`round(clamp(p * (direction ? -100 : 100), -100*maxPower, 100*maxPower))`. -/
def specRoundedPower (F : FloatModel) (m : DcMotor) (p : ℚ) : Int :=
  roundNearest (clamp (F.mul p (if m._motorDirerction then -100 else 100))
    (-(F.mul 100 m._maxPower)) (F.mul 100 m._maxPower))

/-- The same formula with the fractional part discarded instead of rounded. -/
def specTruncatedPower (F : FloatModel) (m : DcMotor) (p : ℚ) : Int :=
  truncToInt (clamp (F.mul p (if m._motorDirerction then -100 else 100))
    (-(F.mul 100 m._maxPower)) (F.mul 100 m._maxPower))

/-! # Properties of the trajectory engine -/

section EngineLemmas

open DriveTrain

variable {W : Type}

/-- On a queue with front `p`, `startFront` resets and starts `p`. -/
theorem startFront_cons (D : DriveSamples W) (s : Engine W) (p : Ptr) (rest : List Ptr)
    (hq : s._trajectory.items = p :: rest) :
    startFront D s = callStart D p (callResetPd D p s) := by
  simp [startFront, Queue.isEmpty, Queue.front, hq]

/-- On an empty queue `startFront` does nothing. -/
theorem startFront_nil (D : DriveSamples W) (s : Engine W)
    (hq : s._trajectory.items = []) : startFront D s = s := by
  simp [startFront, Queue.isEmpty, hq]

/-- The calls `startFront` adds are the front block with no `Execute` yet. -/
theorem startFront_calls (D : DriveSamples W) (s : Engine W) :
    (startFront D s).calls = s.calls ++ frontBlock s._trajectory.items 0 ∧
    (startFront D s)._trajectory = s._trajectory ∧
    (startFront D s)._Timer = s._Timer := by
  cases hq : s._trajectory.items with
  | nil => simp [startFront_nil D s hq, frontBlock]
  | cons p rest =>
    simp [startFront_cons D s p rest hq, frontBlock, callStart, callResetPd]

/-- An update whose `Execute` answers false only logs that call. -/
theorem driveTrainUpdate_unfinished (D : DriveSamples W) (s : Engine W) (p : Ptr)
    (rest : List Ptr) (hq : s._trajectory.items = p :: rest)
    (hE : (D.Execute p s.world).1 = false) :
    driveTrainUpdate D s =
      { s with world := (D.Execute p s.world).2,
               calls := s.calls ++ [Call.execute p false] } := by
  simp [driveTrainUpdate, Queue.isEmpty, Queue.front, hq, callExecute, hE]

/-- An update whose `Execute` answers true dequeues, deletes and starts the
next front. -/
theorem driveTrainUpdate_finished (D : DriveSamples W) (s : Engine W) (p : Ptr)
    (rest : List Ptr) (hq : s._trajectory.items = p :: rest)
    (hE : (D.Execute p s.world).1 = true) :
    driveTrainUpdate D s =
      startFront D (callDelete D p
        { s with world := (D.Execute p s.world).2,
                 calls := s.calls ++ [Call.execute p true],
                 _trajectory := ⟨rest⟩ }) := by
  simp [driveTrainUpdate, Queue.isEmpty, Queue.front, Queue.frontAndDequeue, hq, callExecute, hE]

end EngineLemmas

section EngineClaims

open DriveTrain

variable {W : Type}

/-- C1: on a queue `A :: tail`, a `driveTrainUpdate` call in which
`A.Execute()` returns true leaves the queue equal to `tail` and the timer
untouched, and within that call makes exactly these calls, in this order:
the `Execute` on `A`, the `delete` of `A`, and, when `tail = B :: rest`,
`B.ResetPd()` and then `B.Start()` once each; when `A` was the only element
the queue is empty afterwards and no `ResetPd`/`Start` is made. -/
theorem driveTrainUpdate_finish_advances (D : DriveSamples W) (s : Engine W) (A : Ptr)
    (tail : List Ptr) (hq : s._trajectory.items = A :: tail)
    (hE : (D.Execute A s.world).1 = true) :
    (driveTrainUpdate D s)._trajectory.items = tail ∧
    (driveTrainUpdate D s)._Timer = s._Timer ∧
    match tail with
    | [] =>
      (driveTrainUpdate D s).calls = s.calls ++ [Call.execute A true, Call.delete A] ∧
      (driveTrainUpdate D s).world = D.destroy A (D.Execute A s.world).2
    | B :: _ =>
      (driveTrainUpdate D s).calls =
        s.calls ++ [Call.execute A true, Call.delete A, Call.resetPd B, Call.start B] ∧
      (driveTrainUpdate D s).world =
        D.Start B (D.ResetPd B (D.destroy A (D.Execute A s.world).2)) := by
  rw [driveTrainUpdate_finished D s A tail hq hE]
  cases tail with
  | nil => simp [startFront, Queue.isEmpty, callDelete]
  | cons B rest =>
    simp [startFront, Queue.isEmpty, Queue.front, callDelete, callStart, callResetPd]

/-- C1 at a concrete input: queue `[1, 2, 3]` of countdown maneuvers whose
front finishes on this tick. -/
theorem driveTrainUpdate_finish_advances_witness :
    (driveTrainUpdate countdownSamples ⟨⟨[1, 2, 3]⟩, ⟨0⟩, 1, []⟩)._trajectory.items = [2, 3] ∧
    (driveTrainUpdate countdownSamples ⟨⟨[1, 2, 3]⟩, ⟨0⟩, 1, []⟩)._Timer = ⟨0⟩ ∧
    (driveTrainUpdate countdownSamples ⟨⟨[1, 2, 3]⟩, ⟨0⟩, 1, []⟩).calls =
      [] ++ [Call.execute 1 true, Call.delete 1, Call.resetPd 2, Call.start 2] ∧
    (driveTrainUpdate countdownSamples ⟨⟨[1, 2, 3]⟩, ⟨0⟩, 1, []⟩).world = 2 :=
  driveTrainUpdate_finish_advances countdownSamples ⟨⟨[1, 2, 3]⟩, ⟨0⟩, 1, []⟩ 1 [2, 3] rfl rfl

/-- C10, as stated, fails for `driveTrainStart`: on an empty queue it still
executes `_Timer.reset()`, so the timer changes (here from reading 0 to
reading 5). -/
theorem driveTrainStart_empty_resets_timer :
    (⟨⟨[]⟩, ⟨0⟩, 0, []⟩ : Engine Nat)._trajectory.isEmpty = true ∧
    (driveTrainStart countdownSamples 5 ⟨⟨[]⟩, ⟨0⟩, 0, []⟩)._Timer ≠
      (⟨⟨[]⟩, ⟨0⟩, 0, []⟩ : Engine Nat)._Timer := by
  decide

/-- C10, amended: on an empty queue `driveTrainUpdate` returns the engine
state unchanged, and `driveTrainStart` changes nothing but the timer, which
it resets: both leave the queue empty and call no maneuver operation. -/
theorem empty_queue_start_update (D : DriveSamples W) (now : Nat) (s : Engine W)
    (hq : s._trajectory.isEmpty = true) :
    driveTrainUpdate D s = s ∧
    driveTrainStart D now s = { s with _Timer := s._Timer.reset now } ∧
    (driveTrainStart D now s)._trajectory = s._trajectory ∧
    (driveTrainStart D now s).calls = s.calls ∧
    (driveTrainStart D now s).world = s.world := by
  simp [driveTrainUpdate, driveTrainStart, startFront, hq]

/-- C10 amended, at a concrete input: the idle engine at clock reading 5. -/
theorem empty_queue_start_update_witness :
    driveTrainUpdate countdownSamples ⟨⟨[]⟩, ⟨0⟩, 0, []⟩ = ⟨⟨[]⟩, ⟨0⟩, 0, []⟩ ∧
    driveTrainStart countdownSamples 5 ⟨⟨[]⟩, ⟨0⟩, 0, []⟩ = ⟨⟨[]⟩, ⟨5⟩, 0, []⟩ ∧
    (driveTrainStart countdownSamples 5 ⟨⟨[]⟩, ⟨0⟩, 0, []⟩)._trajectory = ⟨[]⟩ ∧
    (driveTrainStart countdownSamples 5 ⟨⟨[]⟩, ⟨0⟩, 0, []⟩).calls = [] ∧
    (driveTrainStart countdownSamples 5 ⟨⟨[]⟩, ⟨0⟩, 0, []⟩).world = 0 :=
  empty_queue_start_update countdownSamples 5 ⟨⟨[]⟩, ⟨0⟩, 0, []⟩ rfl

end EngineClaims

section EngineRun

open DriveTrain

variable {W : Type}

theorem runShape_start (D : DriveSamples W) (now : Nat) (s : Engine W) :
    RunShape s._trajectory.items s.calls (driveTrainStart D now s) := by
  refine ⟨[], 0, ?_, ?_⟩
  · simp [driveTrainStart, (startFront_calls D _).2.1]
  · simp [driveTrainStart, (startFront_calls D _).1, (startFront_calls D _).2.1]

theorem runShape_update (D : DriveSamples W) (q0 : List Ptr) (c0 : List Call)
    (s : Engine W) (h : RunShape q0 c0 s) : RunShape q0 c0 (driveTrainUpdate D s) := by
  obtain ⟨done, m, hq0, hc⟩ := h
  cases hq : s._trajectory.items with
  | nil =>
    have : driveTrainUpdate D s = s := by simp [driveTrainUpdate, Queue.isEmpty, hq]
    rw [this]
    exact ⟨done, m, hq0, hc⟩
  | cons p rest =>
    cases hE : (D.Execute p s.world).1 with
    | false =>
      rw [driveTrainUpdate_unfinished D s p rest hq hE]
      refine ⟨done, m + 1, by simpa using hq0, ?_⟩
      simp [hc, hq, frontBlock, List.replicate_succ']
    | true =>
      rw [driveTrainUpdate_finished D s p rest hq hE]
      refine ⟨done ++ [(p, m)], 0, ?_, ?_⟩
      · simp [(startFront_calls D _).2.1, callDelete, hq0, hq]
      · simp [(startFront_calls D _).1, (startFront_calls D _).2.1, callDelete, hc, hq,
          frontBlock, doneBlock]

theorem runShape_run (D : DriveSamples W) (now : Nat) (n : Nat) (s : Engine W) :
    RunShape s._trajectory.items s.calls (run D now n s) := by
  induction n with
  | zero => exact runShape_start D now s
  | succ k ih =>
    have : run D now (k + 1) s = driveTrainUpdate D (run D now k s) := by
      simp [run, Function.iterate_succ_apply']
    rw [this]
    exact runShape_update D _ _ _ ih

/-- The calls on `p` within the block of a completed maneuver `pm`. -/
theorem callsOn_doneBlock (p : Ptr) (pm : Ptr × Nat) :
    callsOn p (doneBlock pm) = if pm.1 = p then doneBlock pm else [] := by
  by_cases h : pm.1 = p
  · simp [callsOn, doneBlock, Call.target, h, List.filter_replicate]
  · simp [callsOn, doneBlock, Call.target, h, List.filter_replicate]

/-- The calls on `p` within the block of the front maneuver. -/
theorem callsOn_frontBlock (p : Ptr) (q : List Ptr) (m : Nat) :
    callsOn p (frontBlock q m) = if q.head? = some p then frontBlock q m else [] := by
  cases q with
  | nil => simp [callsOn, frontBlock]
  | cons a rest =>
    by_cases h : a = p
    · simp [callsOn, frontBlock, Call.target, h, List.filter_replicate]
    · simp [callsOn, frontBlock, Call.target, h, List.filter_replicate]

theorem callsOn_append (p : Ptr) (l₁ l₂ : List Call) :
    callsOn p (l₁ ++ l₂) = callsOn p l₁ ++ callsOn p l₂ := by
  simp [callsOn]

/-- Completed blocks of other maneuvers contain no call on `p`. -/
theorem callsOn_blocks_of_not_mem (p : Ptr) (done : List (Ptr × Nat))
    (h : p ∉ done.map Prod.fst) : callsOn p (done.flatMap doneBlock) = [] := by
  induction done with
  | nil => simp [callsOn]
  | cons a rest ih =>
    simp only [List.map_cons, List.mem_cons, not_or] at h
    rw [List.flatMap_cons, callsOn_append, callsOn_doneBlock, ih h.2]
    simp [Ne.symm h.1]

/-- With pairwise distinct maneuvers, the calls on a completed maneuver are
exactly its own block. -/
theorem callsOn_blocks_of_mem (done : List (Ptr × Nat))
    (hnd : (done.map Prod.fst).Nodup) (pm : Ptr × Nat) (h : pm ∈ done) :
    callsOn pm.1 (done.flatMap doneBlock) = doneBlock pm := by
  induction done with
  | nil => simp at h
  | cons a rest ih =>
    simp only [List.map_cons, List.nodup_cons] at hnd
    rw [List.flatMap_cons, callsOn_append, callsOn_doneBlock]
    rcases List.mem_cons.mp h with rfl | hmem
    · simp [callsOn_blocks_of_not_mem _ _ hnd.1]
    · have hne : a.1 ≠ pm.1 := by
        intro he
        exact hnd.1 (he ▸ List.mem_map_of_mem Prod.fst hmem)
      simp [hne, ih hnd.2 hmem]

end EngineRun

section EngineLifecycle

open DriveTrain

variable {W : Type}

/-- C9: in a run of one `driveTrainStart` call followed by `n`
`driveTrainUpdate` calls on a queue of pairwise distinct maneuvers, the call
log is the sequence of the blocks of the maneuvers that ran to completion, in
queue order, followed by the block of the current front. Hence a completed
maneuver received exactly `ResetPd`, `Start`, some `Execute` calls answering
false, the `Execute` answering true, and its deletion, with nothing after it;
the current front received exactly `ResetPd`, `Start` and then `Execute`
calls answering false; a maneuver still waiting behind the front received no
call at all. -/
theorem run_lifecycle (D : DriveSamples W) (now n : Nat) (s : Engine W)
    (hlog : s.calls = []) (hnd : s._trajectory.items.Nodup) :
    ∃ (done : List (Ptr × Nat)) (m : Nat),
      s._trajectory.items = done.map Prod.fst ++ (run D now n s)._trajectory.items ∧
      (run D now n s).calls =
        done.flatMap doneBlock ++ frontBlock (run D now n s)._trajectory.items m ∧
      (∀ pm ∈ done, callsOn pm.1 (run D now n s).calls = doneBlock pm) ∧
      (∀ p, (run D now n s)._trajectory.items.head? = some p →
        callsOn p (run D now n s).calls =
          [Call.resetPd p, Call.start p] ++ List.replicate m (Call.execute p false)) ∧
      (∀ p ∈ (run D now n s)._trajectory.items.tail, callsOn p (run D now n s).calls = []) := by
  obtain ⟨done, m, hq, hc⟩ := runShape_run D now n s
  rw [hlog, List.nil_append] at hc
  rw [hq, List.nodup_append] at hnd
  obtain ⟨hnd1, hnd2, hdisj⟩ := hnd
  refine ⟨done, m, hq, hc, ?_, ?_, ?_⟩
  · intro pm hpm
    have hin : pm.1 ∈ done.map Prod.fst := List.mem_map_of_mem Prod.fst hpm
    rw [hc, callsOn_append, callsOn_blocks_of_mem done hnd1 pm hpm, callsOn_frontBlock]
    have : (run D now n s)._trajectory.items.head? ≠ some pm.1 := by
      intro hh
      exact hdisj hin (List.mem_of_mem_head? hh)
    simp [this]
  · intro p hp
    have hnot : p ∉ done.map Prod.fst := fun hin => hdisj hin (List.mem_of_mem_head? hp)
    rw [hc, callsOn_append, callsOn_blocks_of_not_mem p done hnot, callsOn_frontBlock]
    cases hitems : (run D now n s)._trajectory.items with
    | nil => simp [hitems] at hp
    | cons a rest =>
      simp only [hitems, List.head?_cons, Option.some.injEq] at hp
      simp [hp, frontBlock]
  · intro p hp
    have hmem : p ∈ (run D now n s)._trajectory.items := List.mem_of_mem_tail hp
    have hnot : p ∉ done.map Prod.fst := fun hin => hdisj hin hmem
    rw [hc, callsOn_append, callsOn_blocks_of_not_mem p done hnot, callsOn_frontBlock]
    cases hitems : (run D now n s)._trajectory.items with
    | nil => simp [hitems] at hp
    | cons a rest =>
      simp only [hitems, List.tail_cons] at hp
      have hne : a ≠ p := by
        intro he
        rw [hitems, List.nodup_cons] at hnd2
        exact hnd2.1 (he ▸ hp)
      simp [hne]

/-- C9 at a concrete input: the countdown maneuvers 1, 2, 3, one start and
four updates. Maneuvers 1 and 2 run to completion, 3 is the front. -/
theorem run_lifecycle_witness :
    (run countdownSamples 0 4 ⟨⟨[1, 2, 3]⟩, ⟨0⟩, 0, []⟩).calls =
      [Call.resetPd 1, Call.start 1, Call.execute 1 true, Call.delete 1,
       Call.resetPd 2, Call.start 2, Call.execute 2 false, Call.execute 2 true, Call.delete 2,
       Call.resetPd 3, Call.start 3, Call.execute 3 false] ∧
    ∃ (done : List (Ptr × Nat)) (m : Nat),
      [1, 2, 3] = done.map Prod.fst ++
        (run countdownSamples 0 4 ⟨⟨[1, 2, 3]⟩, ⟨0⟩, 0, []⟩)._trajectory.items ∧
      (run countdownSamples 0 4 ⟨⟨[1, 2, 3]⟩, ⟨0⟩, 0, []⟩).calls =
        done.flatMap doneBlock ++
          frontBlock (run countdownSamples 0 4 ⟨⟨[1, 2, 3]⟩, ⟨0⟩, 0, []⟩)._trajectory.items m ∧
      (∀ pm ∈ done,
        callsOn pm.1 (run countdownSamples 0 4 ⟨⟨[1, 2, 3]⟩, ⟨0⟩, 0, []⟩).calls = doneBlock pm) ∧
      (∀ p, (run countdownSamples 0 4 ⟨⟨[1, 2, 3]⟩, ⟨0⟩, 0, []⟩)._trajectory.items.head? = some p →
        callsOn p (run countdownSamples 0 4 ⟨⟨[1, 2, 3]⟩, ⟨0⟩, 0, []⟩).calls =
          [Call.resetPd p, Call.start p] ++ List.replicate m (Call.execute p false)) ∧
      (∀ p ∈ (run countdownSamples 0 4 ⟨⟨[1, 2, 3]⟩, ⟨0⟩, 0, []⟩)._trajectory.items.tail,
        callsOn p (run countdownSamples 0 4 ⟨⟨[1, 2, 3]⟩, ⟨0⟩, 0, []⟩).calls = []) :=
  ⟨by decide,
    run_lifecycle countdownSamples 0 4 ⟨⟨[1, 2, 3]⟩, ⟨0⟩, 0, []⟩ rfl (by decide)⟩

end EngineLifecycle

/-! # Properties of the motor driver -/

section MachineArith

theorem toInt8_of_mem (n : Int) (h1 : -128 ≤ n) (h2 : n ≤ 127) : toInt8 n = n := by
  unfold toInt8; omega

theorem toInt8_range (n : Int) : -128 ≤ toInt8 n ∧ toInt8 n ≤ 127 := by
  unfold toInt8; omega

theorem toUInt8_inj (a b : Int) (ha : -128 ≤ a ∧ a ≤ 127) (hb : -128 ≤ b ∧ b ≤ 127)
    (h : toUInt8 a = toUInt8 b) : a = b := by
  unfold toUInt8 at h; omega

theorem toInt32_sub_toInt32 (a b : Int) : toInt32 (toInt32 a - b) = toInt32 (a - b) := by
  unfold toInt32; omega

/-- Truncation toward zero keeps a value inside an interval with integer
end points that contains zero. -/
theorem truncToInt_mem (x : ℚ) (a b : Int) (ha : a ≤ 0) (hb : 0 ≤ b)
    (hax : (a : ℚ) ≤ x) (hxb : x ≤ (b : ℚ)) : a ≤ truncToInt x ∧ truncToInt x ≤ b := by
  unfold truncToInt
  split_ifs with h
  · exact ⟨le_trans ha (Int.floor_nonneg.mpr h), (Int.floor_le_floor hxb).trans (by simp)⟩
  · push_neg at h
    refine ⟨?_, le_trans (Int.ceil_le.mpr (by simpa using h.le)) hb⟩
    have := Int.ceil_le_ceil hax
    simpa using this

end MachineArith

section Encoder

/-- The big-endian value of the four response bytes, as the loop of
`readRawCurrentPosition` assembles it. -/
theorem ticksOf_eq (buf : Buf4) :
    (DcMotor.ticksOf buf : Int) =
      buf.b0.val * 2 ^ 24 + buf.b1.val * 2 ^ 16 + buf.b2.val * 2 ^ 8 + buf.b3.val := by
  have h0 := buf.b0.isLt
  have h1 := buf.b1.isLt
  have h2 := buf.b2.isLt
  have h3 := buf.b3.isLt
  simp only [DcMotor.ticksOf, toUInt32]
  omega

/-- C5: `readCurrentPosition` returns, in 32-bit two's complement
arithmetic, `s * toInt32 (b0*2^24 + b1*2^16 + b2*2^8 + b3) - o`, where `s` is
-1 for a reversed encoder direction and 1 otherwise and `o` is the stored
offset; bytes `[0x00, 0x00, 0x01, 0x2C]` with reversed encoder direction and
offset 50 give -350. -/
theorem readCurrentPosition_value (m : DcMotor) (e : DcExpansion) (buf : Buf4) (log : HwLog) :
    (DcMotor.readCurrentPosition m e buf log).1 =
      toInt32 ((if m._encoderDirection = REVERSE then -1 else 1) *
          toInt32 (buf.b0.val * 2 ^ 24 + buf.b1.val * 2 ^ 16 + buf.b2.val * 2 ^ 8 + buf.b3.val)
        - m._encoderResetPos) ∧
    (DcMotor.readCurrentPosition
      { DcMotor.new 1 BRAKE FORWARD REVERSE 1 with _encoderResetPos := 50 }
      (DcExpansion.new 0x10) ⟨0x00, 0x00, 0x01, 0x2C⟩ []).1 = -350 := by
  constructor
  · simp only [DcMotor.readCurrentPosition, DcMotor.readRawCurrentPosition, ticksOf_eq,
      toInt32_sub_toInt32, REVERSE]
    rw [mul_comm]
  · decide

/-- C6: `softwareEncoderReset()` followed by `readCurrentPosition()` on the
same raw reading returns 0, and the reset puts on the bus only the position
request and the read of its answer: no position-reset command (0x4C, 0x4D). -/
theorem softwareEncoderReset_then_read (m : DcMotor) (e : DcExpansion) (buf : Buf4)
    (log : HwLog) :
    (DcMotor.readCurrentPosition (DcMotor.softwareEncoderReset m e buf log).1 e buf
      (DcMotor.softwareEncoderReset m e buf log).2).1 = 0 ∧
    (DcMotor.softwareEncoderReset m e buf log).2 =
      log ++ [HwEvent.write8 e.address
          (if m._channel = 1 then REQUEST_MOTOR_POSITION_C1 else REQUEST_MOTOR_POSITION_C2),
        HwEvent.requestFrom e.address 4, HwEvent.readBytes 4] ∧
    (∀ a, HwEvent.write8 a MOTOR_POSITION_RESET_C1 ∉ (DcMotor.softwareEncoderReset m e buf []).2 ∧
      HwEvent.write8 a MOTOR_POSITION_RESET_C2 ∉ (DcMotor.softwareEncoderReset m e buf []).2) := by
  refine ⟨?_, ?_, ?_⟩
  · simp [DcMotor.readCurrentPosition, DcMotor.softwareEncoderReset,
      DcMotor.readRawCurrentPosition, toInt32]
  · simp [DcMotor.softwareEncoderReset, DcMotor.readRawCurrentPosition]
  · intro a
    simp only [DcMotor.softwareEncoderReset, DcMotor.readRawCurrentPosition,
      REQUEST_MOTOR_POSITION_C1, REQUEST_MOTOR_POSITION_C2, MOTOR_POSITION_RESET_C1,
      MOTOR_POSITION_RESET_C2]
    split_ifs <;> simp

/-- C7: `writeResetEncoder()` sends the position-reset command of the
channel (0x4C for channel 1, 0x4D otherwise), waits the motor delay and sets
the software offset to 0, whatever the offset and encoder direction were; a
`readCurrentPosition()` issued next that reads the zeroed hardware counter
(four zero bytes) returns 0. -/
theorem writeResetEncoder_then_read (m : DcMotor) (e : DcExpansion) (log : HwLog) :
    (DcMotor.writeResetEncoder m e log).2 =
      log ++ [HwEvent.write8 e.address (if m._channel = 1 then 0x4C else 0x4D),
        HwEvent.delay 1] ∧
    (DcMotor.writeResetEncoder m e log).1._encoderResetPos = 0 ∧
    (DcMotor.readCurrentPosition (DcMotor.writeResetEncoder m e log).1 e ⟨0, 0, 0, 0⟩
      (DcMotor.writeResetEncoder m e log).2).1 = 0 := by
  refine ⟨?_, rfl, ?_⟩
  · simp [DcMotor.writeResetEncoder, MOTOR_POSITION_RESET_C1, MOTOR_POSITION_RESET_C2,
      MOTOR_DELAY]
  · simp [DcMotor.readCurrentPosition, DcMotor.readRawCurrentPosition,
      DcMotor.writeResetEncoder, DcMotor.ticksOf, toUInt32, toInt32]

end Encoder

section PowerLemmas

theorem powerValues_append (l₁ l₂ : HwLog) :
    powerValues (l₁ ++ l₂) = powerValues l₁ ++ powerValues l₂ := by
  induction l₁ with
  | nil => simp [powerValues]
  | cons a rest ih =>
    cases a <;> simp [powerValues, ih]
    split_ifs <;> simp

/-- The command value of `writePower` is a value of `int8_t`. -/
theorem commandPower_range (F : FloatModel) (m : DcMotor) (p : ℚ) :
    -128 ≤ DcMotor.commandPower F m p ∧ DcMotor.commandPower F m p ≤ 127 := by
  simp only [DcMotor.commandPower]
  split_ifs
  · simp [toInt8, MOTOR_BRAKE_MOD]
  · exact toInt8_range _

/-- What one `writePower` call does to the motor and to the log. -/
theorem writePower_eq (F : FloatModel) (m : DcMotor) (e : DcExpansion) (p : ℚ) (log : HwLog) :
    DcMotor.writePower F m e p log =
      ({ m with _lastFloatPower := p, _lastPower := DcMotor.commandPower F m p },
        if DcMotor.commandPower F m p ≠ m._lastPower then
          log ++ [HwEvent.write2x8 e.address
              (if m._channel = 1 then MOTOR_SET_POWER_C1 else MOTOR_SET_POWER_C2)
              (toUInt8 (DcMotor.commandPower F m p)),
            HwEvent.delay MOTOR_DELAY]
        else log) := by
  have hc : DcMotor.commandPower F { m with _lastFloatPower := p } p =
      DcMotor.commandPower F m p := rfl
  unfold DcMotor.writePower
  simp only [hc]
  by_cases h : DcMotor.commandPower F m p = m._lastPower
  · simp [h]
  · simp [h]

/-- The power values one `writePower` call puts on the wire. -/
theorem powerValues_writePower (F : FloatModel) (m : DcMotor) (e : DcExpansion) (p : ℚ)
    (log : HwLog) :
    powerValues (DcMotor.writePower F m e p log).2 =
      powerValues log ++
        (if DcMotor.commandPower F m p ≠ m._lastPower then
          [toUInt8 (DcMotor.commandPower F m p)] else []) := by
  rw [writePower_eq]
  by_cases h : DcMotor.commandPower F m p = m._lastPower
  · simp [h]
  · simp only [ne_eq, h, not_false_eq_true, if_true, powerValues_append]
    split_ifs <;> simp [powerValues, MOTOR_SET_POWER_C1, MOTOR_SET_POWER_C2]

/-- The invariant behind de-duplication: consecutive power values on the wire
differ, and the last one is the motor's `_lastPower`, a value of `int8_t`. -/
theorem writePowers_chain (F : FloatModel) (e : DcExpansion) (ps : List ℚ) :
    ∀ (m : DcMotor) (log : HwLog),
      List.Chain' (fun a b => a ≠ b) (powerValues log) →
      (∀ v, (powerValues log).getLast? = some v →
        v = toUInt8 m._lastPower ∧ -128 ≤ m._lastPower ∧ m._lastPower ≤ 127) →
      List.Chain' (fun a b => a ≠ b) (powerValues (DcMotor.writePowers F e ps m log).2) := by
  induction ps with
  | nil => intro m log h _; simpa [DcMotor.writePowers] using h
  | cons p rest ih =>
    intro m log hch hlast
    simp only [DcMotor.writePowers]
    apply ih
    · rw [powerValues_writePower]
      by_cases h : DcMotor.commandPower F m p = m._lastPower
      · simpa [h] using hch
      · simp only [ne_eq, h, not_false_eq_true, if_true]
        rw [List.chain'_append]
        refine ⟨hch, List.chain'_singleton _, ?_⟩
        intro x hx y hy
        simp only [List.head?_cons, Option.mem_def, Option.some.injEq] at hy
        obtain ⟨hv, hr1, hr2⟩ := hlast x hx
        subst hy
        intro hxy
        apply h
        exact (toUInt8_inj _ _ ⟨hr1, hr2⟩ (commandPower_range F m p) (hv ▸ hxy)).symm
    · intro v hv
      rw [powerValues_writePower] at hv
      rw [writePower_eq]
      by_cases h : DcMotor.commandPower F m p = m._lastPower
      · simp only [h, ne_eq, not_true_eq_false, if_false, List.append_nil] at hv
        have := hlast v hv
        simpa [h] using this
      · simp only [ne_eq, h, not_false_eq_true, if_true, List.getLast?_append,
          List.getLast?_singleton, Option.or_some, Option.some.injEq] at hv
        exact ⟨hv.symm, commandPower_range F m p⟩

end PowerLemmas

section PowerClamp

/-- For `maxPower` in (0,1] the `float` product `100 * _maxPower` lies in
[0,100], and `intMaxPower` is its integer part. -/
theorem intMaxPower_bounds (F : FloatModel) (m : DcMotor) (h0 : 0 < m._maxPower)
    (h1 : m._maxPower ≤ 1) :
    0 ≤ DcMotor.intMaxPower F m ∧ DcMotor.intMaxPower F m ≤ 100 ∧
    (DcMotor.intMaxPower F m : ℚ) ≤ F.mul 100 m._maxPower ∧
    DcMotor.intMaxPower F m = truncToInt (F.mul 100 m._maxPower) := by
  have hlo : (0 : ℚ) ≤ F.mul 100 m._maxPower := by
    have := F.mono (show (0 : ℚ) ≤ 100 * m._maxPower by linarith)
    have h := F.exact_int 0 (by norm_num) (by norm_num)
    simp only [Int.cast_zero] at h
    rw [h] at this
    exact this
  have hhi : F.mul 100 m._maxPower ≤ 100 := by
    have := F.mono (show 100 * m._maxPower ≤ (100 : ℚ) by linarith)
    have h := F.exact_int 100 (by norm_num) (by norm_num)
    simp only [Int.cast_ofNat] at h
    rw [h] at this
    exact this
  have ht := truncToInt_mem (F.mul 100 m._maxPower) 0 100 le_rfl (by norm_num)
    (by simpa using hlo) (by simpa using hhi)
  have hfl : (truncToInt (F.mul 100 m._maxPower) : ℚ) ≤ F.mul 100 m._maxPower := by
    unfold truncToInt
    rw [if_pos hlo]
    exact Int.floor_le _
  have heq : DcMotor.intMaxPower F m = truncToInt (F.mul 100 m._maxPower) := by
    unfold DcMotor.intMaxPower
    exact toInt8_of_mem _ (by omega) (by omega)
  rw [heq]
  exact ⟨ht.1, ht.2, hfl, rfl⟩

/-- With a non-negative `intMaxPower` the clamp confines the `float` value. -/
theorem clampedFloat_mem (F : FloatModel) (m : DcMotor) (p : ℚ)
    (hM : 0 ≤ DcMotor.intMaxPower F m) :
    ((-(DcMotor.intMaxPower F m) : Int) : ℚ) ≤ DcMotor.clampedFloat F m p ∧
    DcMotor.clampedFloat F m p ≤ (DcMotor.intMaxPower F m : ℚ) := by
  have hM' : (0 : ℚ) ≤ (DcMotor.intMaxPower F m : ℚ) := by exact_mod_cast hM
  unfold DcMotor.clampedFloat Arduino.min Arduino.max
  push_cast
  split_ifs <;> constructor <;> linarith

/-- With `intMaxPower` in [0,100] the integer power is confined as well, and
its conversion to `int8_t` does not wrap. -/
theorem clampedPower_mem (F : FloatModel) (m : DcMotor) (p : ℚ)
    (hM : 0 ≤ DcMotor.intMaxPower F m) (hM' : DcMotor.intMaxPower F m ≤ 100) :
    -(DcMotor.intMaxPower F m) ≤ DcMotor.clampedPower F m p ∧
    DcMotor.clampedPower F m p ≤ DcMotor.intMaxPower F m ∧
    DcMotor.clampedPower F m p = truncToInt (DcMotor.clampedFloat F m p) := by
  have hc := clampedFloat_mem F m p hM
  have ht := truncToInt_mem (DcMotor.clampedFloat F m p) (-(DcMotor.intMaxPower F m))
    (DcMotor.intMaxPower F m) (by omega) hM hc.1 hc.2
  have heq : DcMotor.clampedPower F m p = truncToInt (DcMotor.clampedFloat F m p) := by
    unfold DcMotor.clampedPower
    exact toInt8_of_mem _ (by omega) (by omega)
  rw [heq]
  exact ⟨ht.1, ht.2, rfl⟩

/-- A requested power of zero is clamped to the integer power zero. -/
theorem clampedPower_zero (F : FloatModel) (m : DcMotor)
    (hM : 0 ≤ DcMotor.intMaxPower F m) : DcMotor.clampedPower F m 0 = 0 := by
  have hM' : (0 : ℚ) ≤ (DcMotor.intMaxPower F m : ℚ) := by exact_mod_cast hM
  have h := F.exact_int 0 (by norm_num) (by norm_num)
  simp only [Int.cast_zero] at h
  have hf : DcMotor.clampedFloat F m 0 = 0 := by
    unfold DcMotor.clampedFloat Arduino.min Arduino.max FloatModel.mul
    simp only [zero_mul, h]
    push_cast
    split_ifs <;> linarith
  simp [DcMotor.clampedPower, hf, truncToInt, toInt8]

end PowerClamp

section PowerClaims

/-- C2: a `writePower` call appends a power command (followed by the motor
delay) to the bus log exactly when the clamped, sentinel-substituted 8-bit
value it computes differs from `_lastPower`, and otherwise appends nothing;
after the call `_lastPower` holds that value; hence in every sequence of
`writePower` calls no two consecutive power commands on the wire carry the
same value. -/
theorem writePower_dedup (F : FloatModel) (e : DcExpansion) (m : DcMotor) (p : ℚ)
    (log : HwLog) (ps : List ℚ) :
    (DcMotor.writePower F m e p log).2 =
      (if DcMotor.commandPower F m p ≠ m._lastPower then
        log ++ [HwEvent.write2x8 e.address
            (if m._channel = 1 then MOTOR_SET_POWER_C1 else MOTOR_SET_POWER_C2)
            (toUInt8 (DcMotor.commandPower F m p)),
          HwEvent.delay MOTOR_DELAY]
      else log) ∧
    (DcMotor.writePower F m e p log).1._lastPower = DcMotor.commandPower F m p ∧
    List.Chain' (fun a b => a ≠ b) (powerValues (DcMotor.writePowers F e ps m []).2) := by
  refine ⟨?_, ?_, ?_⟩
  · rw [writePower_eq]
  · rw [writePower_eq]
  · exact writePowers_chain F e ps m [] (by simp [powerValues]) (by simp [powerValues])

/-- C3: for `maxPower` in (0,1], every requested power and either motor
direction, the integer power `writePower` computes before the brake
substitution lies between `-100 * maxPower` and `100 * maxPower`, the product
being the `float` product the code computes. -/
theorem clampedPower_bounds (F : FloatModel) (m : DcMotor) (p : ℚ)
    (h0 : 0 < m._maxPower) (h1 : m._maxPower ≤ 1) :
    -(F.mul 100 m._maxPower) ≤ (DcMotor.clampedPower F m p : ℚ) ∧
    (DcMotor.clampedPower F m p : ℚ) ≤ F.mul 100 m._maxPower := by
  obtain ⟨hM0, hM1, hMB, _⟩ := intMaxPower_bounds F m h0 h1
  obtain ⟨hlo, hhi, _⟩ := clampedPower_mem F m p hM0 hM1
  have hlo' : (-(DcMotor.intMaxPower F m : ℚ)) ≤ (DcMotor.clampedPower F m p : ℚ) := by
    exact_mod_cast hlo
  have hhi' : (DcMotor.clampedPower F m p : ℚ) ≤ (DcMotor.intMaxPower F m : ℚ) := by
    exact_mod_cast hhi
  constructor <;> linarith

/-- C3 at a concrete input: `maxPower = 1/2`, reversed motor, requested power
3, arithmetic without rounding error: the bound is 50. -/
theorem clampedPower_bounds_witness :
    (0 : ℚ) < (DcMotor.new 1 BRAKE REVERSE FORWARD (1 / 2))._maxPower ∧
    (DcMotor.new 1 BRAKE REVERSE FORWARD (1 / 2))._maxPower ≤ 1 ∧
    exactFloat.mul 100 (DcMotor.new 1 BRAKE REVERSE FORWARD (1 / 2))._maxPower = 50 ∧
    DcMotor.clampedPower exactFloat (DcMotor.new 1 BRAKE REVERSE FORWARD (1 / 2)) 3 = -50 ∧
    -(exactFloat.mul 100 (DcMotor.new 1 BRAKE REVERSE FORWARD (1 / 2))._maxPower) ≤
      (DcMotor.clampedPower exactFloat (DcMotor.new 1 BRAKE REVERSE FORWARD (1 / 2)) 3 : ℚ) ∧
    (DcMotor.clampedPower exactFloat (DcMotor.new 1 BRAKE REVERSE FORWARD (1 / 2)) 3 : ℚ) ≤
      exactFloat.mul 100 (DcMotor.new 1 BRAKE REVERSE FORWARD (1 / 2))._maxPower :=
  ⟨by norm_num [DcMotor.new], by norm_num [DcMotor.new],
    by norm_num [DcMotor.new, FloatModel.mul, exactFloat],
    by norm_num [DcMotor.clampedPower, DcMotor.clampedFloat, DcMotor.intMaxPower, DcMotor.new,
      exactFloat, FloatModel.mul, truncToInt, toInt8, Arduino.min, Arduino.max, REVERSE,
      Int.ceil_neg],
    clampedPower_bounds exactFloat (DcMotor.new 1 BRAKE REVERSE FORWARD (1 / 2)) 3
      (by norm_num [DcMotor.new]) (by norm_num [DcMotor.new])⟩

/-- C4: with `maxPower` in (0,1], `writePower(0)` selects the brake sentinel
0x7D as its command value when the zero-power behaviour is brake and the
numeric value 0 when it is float; and a `writePower` call made while the
behaviour is brake never puts the value 0 on the bus, whatever the requested
power. -/
theorem zero_power_command (F : FloatModel) (m : DcMotor) (e : DcExpansion)
    (h0 : 0 < m._maxPower) (h1 : m._maxPower ≤ 1) :
    (m._zeroPowerBehavior = BRAKE → DcMotor.commandPower F m 0 = 0x7D) ∧
    (m._zeroPowerBehavior = FLOAT → DcMotor.commandPower F m 0 = 0) ∧
    (m._zeroPowerBehavior = BRAKE →
      ∀ p, 0 ∉ powerValues (DcMotor.writePower F m e p []).2) := by
  obtain ⟨hM0, _, _, _⟩ := intMaxPower_bounds F m h0 h1
  have hz := clampedPower_zero F m hM0
  refine ⟨?_, ?_, ?_⟩
  · intro hb
    simp [DcMotor.commandPower, hz, hb, BRAKE, toInt8, MOTOR_BRAKE_MOD]
  · intro hf
    simp [DcMotor.commandPower, hz, hf, FLOAT]
  · intro hb p
    rw [powerValues_writePower]
    have hr : -128 ≤ DcMotor.clampedPower F m p ∧ DcMotor.clampedPower F m p ≤ 127 :=
      toInt8_range _
    have hne : toUInt8 (DcMotor.commandPower F m p) ≠ 0 := by
      simp only [DcMotor.commandPower, hb, BRAKE, and_true]
      split_ifs with hc
      · simp [toInt8, toUInt8, MOTOR_BRAKE_MOD]
      · unfold toUInt8; omega
    split_ifs
    · simpa [powerValues] using hne.symm
    · simp [powerValues]

/-- C4 at a concrete input: a motor with brake behaviour and `maxPower = 1`,
arithmetic without rounding error. -/
theorem zero_power_command_witness :
    ((DcMotor.new 1 BRAKE FORWARD FORWARD 1)._zeroPowerBehavior = BRAKE →
      DcMotor.commandPower exactFloat (DcMotor.new 1 BRAKE FORWARD FORWARD 1) 0 = 0x7D) ∧
    ((DcMotor.new 1 BRAKE FORWARD FORWARD 1)._zeroPowerBehavior = FLOAT →
      DcMotor.commandPower exactFloat (DcMotor.new 1 BRAKE FORWARD FORWARD 1) 0 = 0) ∧
    ((DcMotor.new 1 BRAKE FORWARD FORWARD 1)._zeroPowerBehavior = BRAKE →
      ∀ p, 0 ∉ powerValues
        (DcMotor.writePower exactFloat (DcMotor.new 1 BRAKE FORWARD FORWARD 1)
          (DcExpansion.new 0x10) p []).2) :=
  zero_power_command exactFloat (DcMotor.new 1 BRAKE FORWARD FORWARD 1) (DcExpansion.new 0x10)
    (by norm_num [DcMotor.new]) (by norm_num [DcMotor.new])

end PowerClaims

section Enable

theorem readings_zero (clock : Nat → Nat) (k0 : Nat) :
    DcExpansion.readings clock k0 0 = [HwEvent.millis (toUInt32 (clock k0))] := by
  simp [DcExpansion.readings, List.range_succ]

theorem readings_succ (clock : Nat → Nat) (k0 j : Nat) :
    DcExpansion.readings clock k0 (j + 1) =
      HwEvent.millis (toUInt32 (clock k0)) :: DcExpansion.readings clock (k0 + 1) j := by
  simp only [DcExpansion.readings]
  rw [List.range_succ_eq_map]
  simp [List.map_map, Function.comp_def, Nat.add_assoc, Nat.add_comm 1]

/-- The settle wait returns exactly when one of the first `fuel` readings is
settled; it has then logged the readings up to the first settled one. -/
theorem waitReset_eq_some (clock : Nat → Nat) (rt : Nat) (fuel : Nat) :
    ∀ (k0 : Nat) (log log' : HwLog),
      DcExpansion.waitReset clock rt fuel k0 log = some log' ↔
        ∃ j, j < fuel ∧ DcExpansion.settled rt (clock (k0 + j)) ∧
          (∀ i, i < j → ¬ DcExpansion.settled rt (clock (k0 + i))) ∧
          log' = log ++ DcExpansion.readings clock k0 j := by
  induction fuel with
  | zero => intro k0 log log'; simp [DcExpansion.waitReset]
  | succ f ih =>
    intro k0 log log'
    simp only [DcExpansion.waitReset]
    by_cases hs : DcExpansion.settled rt (clock k0)
    · have hlt : ¬ subUInt32 (toUInt32 (clock k0)) rt < EXPANSION_RESET_TIME := by
        simpa [DcExpansion.settled] using hs
      rw [if_neg hlt]
      constructor
      · intro h
        refine ⟨0, Nat.succ_pos f, by simpa using hs, by simp, ?_⟩
        rw [readings_zero]
        exact (Option.some.inj h).symm
      · rintro ⟨j, _, _, hmin, hlog⟩
        have hj : j = 0 := by
          by_contra hne
          exact hmin 0 (Nat.pos_of_ne_zero hne) (by simpa using hs)
        subst hj
        rw [hlog, readings_zero]
    · have hlt : subUInt32 (toUInt32 (clock k0)) rt < EXPANSION_RESET_TIME := by
        simpa [DcExpansion.settled] using hs
      rw [if_pos hlt, ih]
      constructor
      · rintro ⟨j, hj, hset, hmin, hlog⟩
        refine ⟨j + 1, by omega, by simpa [Nat.add_assoc, Nat.add_comm 1] using hset, ?_, ?_⟩
        · intro i hi
          cases i with
          | zero => simpa using hs
          | succ i' =>
            have := hmin i' (by omega)
            simpa [Nat.add_assoc, Nat.add_comm 1] using this
        · rw [hlog, readings_succ]
          simp
      · rintro ⟨j, hj, hset, hmin, hlog⟩
        cases j with
        | zero => exact absurd (by simpa using hset) hs
        | succ j' =>
          refine ⟨j', by omega, by simpa [Nat.add_assoc, Nat.add_comm 1] using hset, ?_, ?_⟩
          · intro i hi
            have := hmin (i + 1) (by omega)
            simpa [Nat.add_assoc, Nat.add_comm 1] using this
          · rw [hlog, readings_succ]
            simp

end Enable

section EnableClaim

/-- C8: on a controller that is not yet enabled, `enable()` returns (within
`fuel` readings of the clock) exactly when one of the readings `t` satisfies
`t - _resetTime >= 1000` in unsigned 32-bit arithmetic; it has then taken the
readings `clock 0, ..., clock k` up to the first such reading and sent the
enable command 0x25 right after that reading `clock k`, every earlier reading
having failed the test; nothing else is put on the bus. -/
theorem enable_waits_for_settle (e : DcExpansion) (clock : Nat → Nat) (fuel : Nat)
    (log : HwLog) (r : DcExpansion × HwLog) (hne : e._enabled = false) :
    e.enable clock fuel log = some r ↔
      ∃ k, k < fuel ∧
        1000 ≤ subUInt32 (toUInt32 (clock k)) e._resetTime ∧
        (∀ i, i < k → subUInt32 (toUInt32 (clock i)) e._resetTime < 1000) ∧
        r = ({ e with _enabled := true },
          log ++ DcExpansion.readings clock 0 k ++ [HwEvent.write8 e.address 0x25]) := by
  unfold DcExpansion.enable
  simp only [hne, Bool.false_eq_true, if_false]
  constructor
  · intro h
    cases hw : DcExpansion.waitReset clock e._resetTime fuel 0 log with
    | none => simp [hw] at h
    | some log' =>
      obtain ⟨j, hj, hset, hmin, hlog⟩ := (waitReset_eq_some clock e._resetTime fuel 0 log log').mp hw
      refine ⟨j, hj, by simpa [DcExpansion.settled, EXPANSION_RESET_TIME] using hset, ?_, ?_⟩
      · intro i hi
        have := hmin i hi
        simpa [DcExpansion.settled, EXPANSION_RESET_TIME] using this
      · simp only [hw, Option.some.injEq] at h
        rw [← h, hlog]
        simp [EXPANSION_ENABLE]
  · rintro ⟨k, hk, hset, hmin, hr⟩
    have hw : DcExpansion.waitReset clock e._resetTime fuel 0 log =
        some (log ++ DcExpansion.readings clock 0 k) := by
      rw [waitReset_eq_some]
      refine ⟨k, hk, by simpa [DcExpansion.settled, EXPANSION_RESET_TIME] using hset, ?_, rfl⟩
      intro i hi
      have := hmin i hi
      simpa [DcExpansion.settled, EXPANSION_RESET_TIME] using this
    rw [hw, hr]
    simp [EXPANSION_ENABLE]

/-- C8 in the scenario of the spec: controller at address 0x10, `begin()` at
clock reading 0, `enable()` called at reading 500 with the clock advancing by
one per reading. The call returns; the enable command follows the readings
500, ..., 1000, the last of which is the first with `t - 0 >= 1000`. -/
theorem enable_waits_for_settle_witness :
    (DcExpansion.begin (DcExpansion.new 0x10) 0 []).1._enabled = false ∧
    (DcExpansion.begin (DcExpansion.new 0x10) 0 []).1._resetTime = 0 ∧
    toUInt32 ((fun i => 500 + i) 500) = 1000 ∧
    (DcExpansion.begin (DcExpansion.new 0x10) 0 []).1.enable (fun i => 500 + i) 600
        (DcExpansion.begin (DcExpansion.new 0x10) 0 []).2 =
      some ({ (DcExpansion.begin (DcExpansion.new 0x10) 0 []).1 with _enabled := true },
        (DcExpansion.begin (DcExpansion.new 0x10) 0 []).2
          ++ DcExpansion.readings (fun i => 500 + i) 0 500
          ++ [HwEvent.write8 (DcExpansion.begin (DcExpansion.new 0x10) 0 []).1.address 0x25]) :=
  ⟨rfl, rfl, rfl,
    (enable_waits_for_settle (DcExpansion.begin (DcExpansion.new 0x10) 0 []).1
      (fun i => 500 + i) 600 (DcExpansion.begin (DcExpansion.new 0x10) 0 []).2 _ rfl).mpr
      ⟨500, by decide, by decide, fun i hi => by
        simp only [DcExpansion.begin, DcExpansion.new, subUInt32, toUInt32]
        omega, rfl⟩⟩

end EnableClaim

/-! # Further properties of the engine -/

section EngineStartStep

open DriveTrain

variable {W : Type}

/-- C13: on a non-empty queue `A :: rest`, whatever was logged before,
`driveTrainStart` appends exactly `A.ResetPd()` and then `A.Start()` to the
call log, so it makes no `Execute` call and no call on another maneuver, and
leaves the queue with the same content in the same order; the state of the
maneuvers afterwards is the one `ResetPd` and then `Start` of `A` produce. -/
theorem driveTrainStart_starts_front (D : DriveSamples W) (now : Nat) (s : Engine W)
    (A : Ptr) (rest : List Ptr) (hq : s._trajectory.items = A :: rest) :
    (driveTrainStart D now s).calls = s.calls ++ [Call.resetPd A, Call.start A] ∧
    (driveTrainStart D now s)._trajectory = s._trajectory ∧
    (driveTrainStart D now s).world = D.Start A (D.ResetPd A s.world) := by
  have h := startFront_cons D { s with _Timer := s._Timer.reset now } A rest hq
  simp [driveTrainStart, h, callStart, callResetPd]

/-- C13 at a concrete input: a restart while maneuver 2 of `[2, 3]` is
running (two calls already logged, countdown at 1). -/
theorem driveTrainStart_starts_front_witness :
    (driveTrainStart countdownSamples 7
        ⟨⟨[2, 3]⟩, ⟨0⟩, 1, [Call.resetPd 2, Call.start 2, Call.execute 2 false]⟩).calls =
      [Call.resetPd 2, Call.start 2, Call.execute 2 false] ++ [Call.resetPd 2, Call.start 2] ∧
    (driveTrainStart countdownSamples 7
        ⟨⟨[2, 3]⟩, ⟨0⟩, 1, [Call.resetPd 2, Call.start 2, Call.execute 2 false]⟩)._trajectory =
      ⟨[2, 3]⟩ ∧
    (driveTrainStart countdownSamples 7
        ⟨⟨[2, 3]⟩, ⟨0⟩, 1, [Call.resetPd 2, Call.start 2, Call.execute 2 false]⟩).world = 2 :=
  driveTrainStart_starts_front countdownSamples 7
    ⟨⟨[2, 3]⟩, ⟨0⟩, 1, [Call.resetPd 2, Call.start 2, Call.execute 2 false]⟩ 2 [3] rfl

/-- C14: on a non-empty queue `A :: rest`, a `driveTrainUpdate` call in which
`A.Execute()` returns false appends exactly that one `Execute` call to the
call log, so it makes no `ResetPd`, `Start` or `delete`, and leaves the queue
and the timer as they were. -/
theorem driveTrainUpdate_unfinished_keeps_queue (D : DriveSamples W) (s : Engine W)
    (A : Ptr) (rest : List Ptr) (hq : s._trajectory.items = A :: rest)
    (hE : (D.Execute A s.world).1 = false) :
    (driveTrainUpdate D s).calls = s.calls ++ [Call.execute A false] ∧
    (driveTrainUpdate D s)._trajectory = s._trajectory ∧
    (driveTrainUpdate D s)._Timer = s._Timer ∧
    (driveTrainUpdate D s).world = (D.Execute A s.world).2 := by
  rw [driveTrainUpdate_unfinished D s A rest hq hE]
  exact ⟨rfl, rfl, rfl, rfl⟩

/-- C14 at a concrete input: maneuver 2 of `[2, 3]` with its countdown at 2
does not finish on this tick. -/
theorem driveTrainUpdate_unfinished_keeps_queue_witness :
    (driveTrainUpdate countdownSamples ⟨⟨[2, 3]⟩, ⟨0⟩, 2, []⟩).calls =
      [] ++ [Call.execute 2 false] ∧
    (driveTrainUpdate countdownSamples ⟨⟨[2, 3]⟩, ⟨0⟩, 2, []⟩)._trajectory = ⟨[2, 3]⟩ ∧
    (driveTrainUpdate countdownSamples ⟨⟨[2, 3]⟩, ⟨0⟩, 2, []⟩)._Timer = ⟨0⟩ ∧
    (driveTrainUpdate countdownSamples ⟨⟨[2, 3]⟩, ⟨0⟩, 2, []⟩).world = 1 :=
  driveTrainUpdate_unfinished_keeps_queue countdownSamples ⟨⟨[2, 3]⟩, ⟨0⟩, 2, []⟩ 2 [3] rfl rfl

end EngineStartStep

/-! # Further properties of the motor driver -/

section GetPower

/-- C12: after `writePower(p)` the value `getPower()` returns is `p` itself,
for every power, motor state and rounding: also when the command on the wire
was clamped, and also when nothing was transmitted because the command
equalled `_lastPower`. -/
theorem getPower_after_writePower (F : FloatModel) (m : DcMotor) (e : DcExpansion) (p : ℚ)
    (log : HwLog) :
    (DcMotor.writePower F m e p log).1.getPower = p ∧
    (DcMotor.commandPower F m p = m._lastPower →
      (DcMotor.writePower F m e p log).2 = log ∧
      (DcMotor.writePower F m e p log).1.getPower = p) := by
  rw [writePower_eq]
  refine ⟨rfl, fun h => ⟨by simp [h], rfl⟩⟩

end GetPower

section PowerRounding

/-- Truncation of a value between a non-negative integer and its successor. -/
theorem truncToInt_eq_of_nonneg (y : ℚ) (n : Int) (hn : 0 ≤ n) (h1 : (n : ℚ) ≤ y)
    (h2 : y < (n : ℚ) + 1) : truncToInt y = n := by
  have hy : (0 : ℚ) ≤ y := le_trans (by exact_mod_cast hn) h1
  unfold truncToInt
  rw [if_pos hy, Int.floor_eq_iff]
  exact ⟨h1, h2⟩

/-- Truncation of a value between the predecessor of a non-positive integer
and that integer. -/
theorem truncToInt_eq_of_nonpos (y : ℚ) (n : Int) (hn : n ≤ 0) (h1 : (n : ℚ) - 1 < y)
    (h2 : y ≤ (n : ℚ)) : truncToInt y = n := by
  have hn' : (n : ℚ) ≤ 0 := by exact_mod_cast hn
  unfold truncToInt
  split_ifs with hy
  · have hy0 : y = 0 := le_antisymm (le_trans h2 hn') hy
    have hn0 : (n : ℚ) = 0 := le_antisymm hn' (by rw [← hy0]; exact h2)
    have : n = 0 := by exact_mod_cast hn0
    simp [hy0, this]
  · rw [Int.ceil_eq_iff]
    exact ⟨h1, h2⟩

/-- For `maxPower` in (0,1], `intMaxPower` is the integer part of the `float`
product `100 * _maxPower`. -/
theorem intMaxPower_floor (F : FloatModel) (m : DcMotor) (h0 : 0 < m._maxPower)
    (h1 : m._maxPower ≤ 1) :
    0 ≤ DcMotor.intMaxPower F m ∧
    (DcMotor.intMaxPower F m : ℚ) ≤ F.mul 100 m._maxPower ∧
    F.mul 100 m._maxPower < (DcMotor.intMaxPower F m : ℚ) + 1 := by
  obtain ⟨hM0, _, hMB, heq⟩ := intMaxPower_bounds F m h0 h1
  have hB : (0 : ℚ) ≤ F.mul 100 m._maxPower := le_trans (by exact_mod_cast hM0) hMB
  refine ⟨hM0, hMB, ?_⟩
  rw [heq]
  unfold truncToInt
  rw [if_pos hB]
  exact Int.lt_floor_add_one _

/-- For `maxPower` in (0,1] the integer power of the code is the clamped
`float` value of the spec with its fractional part discarded. -/
theorem clampedPower_eq_truncated (F : FloatModel) (m : DcMotor) (p : ℚ)
    (h0 : 0 < m._maxPower) (h1 : m._maxPower ≤ 1) :
    DcMotor.clampedPower F m p = specTruncatedPower F m p := by
  obtain ⟨hM0, hMB, hBM⟩ := intMaxPower_floor F m h0 h1
  obtain ⟨_, hM100, _, _⟩ := intMaxPower_bounds F m h0 h1
  rw [(clampedPower_mem F m p hM0 hM100).2.2]
  have hMq : (0 : ℚ) ≤ (DcMotor.intMaxPower F m : ℚ) := by exact_mod_cast hM0
  unfold specTruncatedPower DcMotor.clampedFloat
  generalize F.mul p (if m._motorDirerction = true then -100 else 100) = x
  generalize F.mul 100 m._maxPower = B at hMB hBM
  generalize DcMotor.intMaxPower F m = M at hM0 hMB hBM hMq hM100
  rcases le_or_lt (M : ℚ) x with hx | hx
  · have hc : Arduino.min (M : ℚ) (Arduino.max ((-M : Int) : ℚ) x) = (M : ℚ) := by
      unfold Arduino.min Arduino.max
      push_cast
      split_ifs <;> linarith
    have hs1 : (M : ℚ) ≤ clamp x (-B) B := by
      unfold clamp
      exact le_min hMB (le_trans hx (le_max_right _ _))
    have hs2 : clamp x (-B) B < (M : ℚ) + 1 := by
      unfold clamp
      exact lt_of_le_of_lt (min_le_left _ _) hBM
    rw [hc, truncToInt_eq_of_nonneg _ M hM0 le_rfl (by linarith),
      truncToInt_eq_of_nonneg _ M hM0 hs1 hs2]
  · rcases le_or_lt x (-(M : ℚ)) with hx' | hx'
    · have hc : Arduino.min (M : ℚ) (Arduino.max ((-M : Int) : ℚ) x) = ((-M : Int) : ℚ) := by
        unfold Arduino.min Arduino.max
        push_cast
        split_ifs <;> linarith
      have hmax : max (-B) x ≤ -(M : ℚ) := max_le (by linarith) hx'
      have hs : clamp x (-B) B = max (-B) x := by
        unfold clamp
        exact min_eq_right (by linarith)
      have hs1 : ((-M : Int) : ℚ) - 1 < clamp x (-B) B := by
        rw [hs]
        push_cast
        exact lt_of_lt_of_le (by linarith) (le_max_left _ _)
      have hs2 : clamp x (-B) B ≤ ((-M : Int) : ℚ) := by
        rw [hs]
        push_cast
        exact hmax
      rw [hc, truncToInt_eq_of_nonpos _ (-M) (by omega) (by linarith) le_rfl,
        truncToInt_eq_of_nonpos _ (-M) (by omega) hs1 hs2]
    · have hc : Arduino.min (M : ℚ) (Arduino.max ((-M : Int) : ℚ) x) = x := by
        unfold Arduino.min Arduino.max
        push_cast
        split_ifs <;> linarith
      have hs : clamp x (-B) B = x := by
        unfold clamp
        rw [max_eq_right (by linarith), min_eq_right (by linarith)]
      rw [hc, hs]

end PowerRounding

section PowerRoundingClaim

/-- C11, as stated, fails: for the power 1/128 on a forward motor with
`maxPower = 1` the product is 0.78125, with no rounding error in `float`; the
code converts it to `int8_t` by discarding the fraction and gets 0, while
rounding to the nearest integer gives 1. -/
theorem writePower_truncates_instead_of_rounding :
    DcMotor.clampedPower exactFloat (DcMotor.new 1 BRAKE FORWARD FORWARD 1) (1 / 128) = 0 ∧
    specRoundedPower exactFloat (DcMotor.new 1 BRAKE FORWARD FORWARD 1) (1 / 128) = 1 ∧
    DcMotor.clampedPower exactFloat (DcMotor.new 1 BRAKE FORWARD FORWARD 1) (1 / 128) ≠
      specRoundedPower exactFloat (DcMotor.new 1 BRAKE FORWARD FORWARD 1) (1 / 128) := by
  have hc : DcMotor.clampedPower exactFloat (DcMotor.new 1 BRAKE FORWARD FORWARD 1) (1 / 128)
      = 0 := by
    rw [clampedPower_eq_truncated _ _ _ (by norm_num [DcMotor.new]) (by norm_num [DcMotor.new])]
    unfold specTruncatedPower
    apply truncToInt_eq_of_nonneg _ 0 le_rfl <;>
      norm_num [clamp, DcMotor.new, exactFloat, FloatModel.mul, FORWARD]
  have hs : specRoundedPower exactFloat (DcMotor.new 1 BRAKE FORWARD FORWARD 1) (1 / 128)
      = 1 := by
    unfold specRoundedPower roundNearest
    have hv : clamp (exactFloat.mul (1 / 128)
        (if (DcMotor.new 1 BRAKE FORWARD FORWARD 1)._motorDirerction = true then -100 else 100))
        (-(exactFloat.mul 100 (DcMotor.new 1 BRAKE FORWARD FORWARD 1)._maxPower))
        (exactFloat.mul 100 (DcMotor.new 1 BRAKE FORWARD FORWARD 1)._maxPower) = 25 / 32 := by
      norm_num [clamp, DcMotor.new, exactFloat, FloatModel.mul, FORWARD]
    rw [hv, if_pos (by norm_num), Int.floor_eq_iff]
    norm_num
  exact ⟨hc, hs, by rw [hc, hs]; decide⟩

/-- C11, amended: for `maxPower` in (0,1], every requested power and either
motor direction, the 8-bit signed power `writePower` computes is
`clamp(p * (reversed ? -100 : 100), -100*maxPower, 100*maxPower)` with its
fractional part discarded (truncation toward zero), not rounded. -/
theorem clampedPower_is_truncated_clamp (F : FloatModel) (m : DcMotor) (p : ℚ)
    (h0 : 0 < m._maxPower) (h1 : m._maxPower ≤ 1) :
    DcMotor.clampedPower F m p =
      truncToInt (clamp (F.mul p (if m._motorDirerction = REVERSE then -100 else 100))
        (-(F.mul 100 m._maxPower)) (F.mul 100 m._maxPower)) :=
  clampedPower_eq_truncated F m p h0 h1

/-- C11 amended, at a concrete input: reversed motor, `maxPower = 1/2`,
requested power -3/1000: the product 0.3 is truncated to 0. -/
theorem clampedPower_is_truncated_clamp_witness :
    (0 : ℚ) < (DcMotor.new 1 BRAKE REVERSE FORWARD (1 / 2))._maxPower ∧
    (DcMotor.new 1 BRAKE REVERSE FORWARD (1 / 2))._maxPower ≤ 1 ∧
    truncToInt (clamp (exactFloat.mul (-3 / 1000)
        (if (DcMotor.new 1 BRAKE REVERSE FORWARD (1 / 2))._motorDirerction = REVERSE
          then -100 else 100))
      (-(exactFloat.mul 100 (DcMotor.new 1 BRAKE REVERSE FORWARD (1 / 2))._maxPower))
      (exactFloat.mul 100 (DcMotor.new 1 BRAKE REVERSE FORWARD (1 / 2))._maxPower)) = 0 ∧
    DcMotor.clampedPower exactFloat (DcMotor.new 1 BRAKE REVERSE FORWARD (1 / 2)) (-3 / 1000) =
      truncToInt (clamp (exactFloat.mul (-3 / 1000)
          (if (DcMotor.new 1 BRAKE REVERSE FORWARD (1 / 2))._motorDirerction = REVERSE
            then -100 else 100))
        (-(exactFloat.mul 100 (DcMotor.new 1 BRAKE REVERSE FORWARD (1 / 2))._maxPower))
        (exactFloat.mul 100 (DcMotor.new 1 BRAKE REVERSE FORWARD (1 / 2))._maxPower)) :=
  ⟨by norm_num [DcMotor.new], by norm_num [DcMotor.new],
    by
      apply truncToInt_eq_of_nonneg _ 0 le_rfl <;>
        norm_num [clamp, DcMotor.new, exactFloat, FloatModel.mul, REVERSE],
    clampedPower_is_truncated_clamp exactFloat (DcMotor.new 1 BRAKE REVERSE FORWARD (1 / 2))
      (-3 / 1000) (by norm_num [DcMotor.new]) (by norm_num [DcMotor.new])⟩

end PowerRoundingClaim

section EnableLemmas

/-- An enabled controller: `enable()` returns at once and changes nothing. -/
theorem enable_of_enabled (e : DcExpansion) (clock : Nat → Nat) (fuel : Nat) (log : HwLog)
    (h : e._enabled = true) : e.enable clock fuel log = some (e, log) := by
  simp [DcExpansion.enable, h]

/-- A controller that is not enabled: `enable()` returns exactly when the
settle wait does, and then appends the enable command. -/
theorem enable_eq_some_iff (e : DcExpansion) (clock : Nat → Nat) (fuel : Nat) (log : HwLog)
    (r : DcExpansion × HwLog) (h : e._enabled = false) :
    e.enable clock fuel log = some r ↔
      ∃ k, k < fuel ∧ DcExpansion.settled e._resetTime (clock k) ∧
        (∀ i, i < k → ¬ DcExpansion.settled e._resetTime (clock i)) ∧
        r = ({ e with _enabled := true },
          log ++ DcExpansion.readings clock 0 k ++ [HwEvent.write8 e.address EXPANSION_ENABLE]) := by
  unfold DcExpansion.enable
  simp only [h, Bool.false_eq_true, if_false]
  cases hw : DcExpansion.waitReset clock e._resetTime fuel 0 log with
  | none =>
    constructor
    · intro hh
      simp at hh
    · rintro ⟨k, hk, hset, hmin, _⟩
      have : DcExpansion.waitReset clock e._resetTime fuel 0 log =
          some (log ++ DcExpansion.readings clock 0 k) := by
        rw [waitReset_eq_some]
        exact ⟨k, hk, by simpa using hset, by simpa using hmin, rfl⟩
      rw [hw] at this
      simp at this
  | some log' =>
    obtain ⟨j, hj, hset, hmin, hlog⟩ :=
      (waitReset_eq_some clock e._resetTime fuel 0 log log').mp hw
    simp only [Nat.zero_add] at hset hmin
    constructor
    · intro hh
      simp only [Option.some.injEq] at hh
      exact ⟨j, hj, hset, hmin, by rw [← hh, hlog]⟩
    · rintro ⟨k, hk, hset', hmin', hr⟩
      have hkj : k = j := by
        rcases Nat.lt_trichotomy k j with hlt | heq | hgt
        · exact absurd hset' (hmin k hlt)
        · exact heq
        · exact absurd hset (hmin' j hgt)
      subst hkj
      simp only [Option.some.injEq]
      rw [hr, hlog]

/-- The readings of the clock contain no bus write. -/
theorem count_write8_readings (clock : Nat → Nat) (k0 j a c : Nat) :
    (DcExpansion.readings clock k0 j).count (HwEvent.write8 a c) = 0 := by
  rw [List.count_eq_zero]
  intro hmem
  simp [DcExpansion.readings] at hmem

/-- Further `enable()` calls on an enabled controller change nothing. -/
theorem enableRepeat_of_enabled (clock : Nat → Nat) (fuel n : Nat) (e : DcExpansion)
    (log : HwLog) (h : e._enabled = true) :
    DcExpansion.enableRepeat clock fuel n e log = some (e, log) := by
  induction n with
  | zero => rfl
  | succ k ih => simp [DcExpansion.enableRepeat, enable_of_enabled e clock fuel log h, ih]

/-- After a call of `enable()` that returned, the controller is enabled. -/
theorem enabled_after_enable (e : DcExpansion) (clock : Nat → Nat) (fuel : Nat) (log : HwLog)
    (r : DcExpansion × HwLog) (h : e.enable clock fuel log = some r) : r.1._enabled = true := by
  cases he : e._enabled with
  | true =>
    rw [enable_of_enabled e clock fuel log he] at h
    rw [← Option.some.inj h]
    exact he
  | false =>
    obtain ⟨k, _, _, _, hr⟩ := (enable_eq_some_iff e clock fuel log r he).mp h
    rw [hr]

end EnableLemmas

section BeginAndIdempotence

/-- C15: `DcMotor::begin()` returns exactly in these two cases. If the
controller was enabled beforehand, it returns at once, having sent only the
position-reset command of the channel and waited the motor delay. If it was
not, it returns when one of the clock readings is at least 1000 after
`_resetTime`, having sent the enable command 0x25 after the first such
reading and the position-reset command after that. In both cases the
controller reports enabled afterwards and the software offset is 0. -/
theorem motor_begin_enables_then_resets (m : DcMotor) (e : DcExpansion) (clock : Nat → Nat)
    (fuel : Nat) (log : HwLog) (r : DcMotor × DcExpansion × HwLog) :
    m.begin e clock fuel log = some r ↔
      ∃ sent : HwLog,
        (if e._enabled = true then sent = []
         else ∃ k, k < fuel ∧
           1000 ≤ subUInt32 (toUInt32 (clock k)) e._resetTime ∧
           (∀ i, i < k → subUInt32 (toUInt32 (clock i)) e._resetTime < 1000) ∧
           sent = DcExpansion.readings clock 0 k ++ [HwEvent.write8 e.address 0x25]) ∧
        r.2.1.isEnabled = true ∧
        r.1._encoderResetPos = 0 ∧
        r = ({ m with _encoderResetPos := 0 }, { e with _enabled := true },
          log ++ sent ++
            [HwEvent.write8 e.address (if m._channel = 1 then 0x4C else 0x4D),
              HwEvent.delay 1]) := by
  cases he : e._enabled with
  | true =>
    have hb : m.begin e clock fuel log =
        some ({ m with _encoderResetPos := 0 }, e,
          log ++ [HwEvent.write8 e.address (if m._channel = 1 then 0x4C else 0x4D),
            HwEvent.delay 1]) := by
      simp [DcMotor.begin, DcExpansion.isEnabled, he, DcMotor.writeResetEncoder,
        MOTOR_POSITION_RESET_C1, MOTOR_POSITION_RESET_C2, MOTOR_DELAY]
    have hee : ({ e with _enabled := true } : DcExpansion) = e := by
      cases e
      simp_all
    rw [hb]
    simp only [if_true, hee]
    constructor
    · intro h
      refine ⟨[], rfl, ?_, ?_, ?_⟩
      · rw [← Option.some.inj h]; exact he
      · rw [← Option.some.inj h]
      · rw [← Option.some.inj h]; simp
    · rintro ⟨sent, hs, _, _, hr⟩
      rw [hr, hs]
      simp
  | false =>
    have hb : m.begin e clock fuel log =
        (e.enable clock fuel log).map (fun x =>
          (({ m with _encoderResetPos := 0 } : DcMotor), x.1,
            x.2 ++ [HwEvent.write8 x.1.address (if m._channel = 1 then 0x4C else 0x4D),
              HwEvent.delay 1])) := by
      simp only [DcMotor.begin, DcExpansion.isEnabled, he, Bool.not_false, if_true]
      cases e.enable clock fuel log with
      | none => rfl
      | some x =>
        simp [DcMotor.writeResetEncoder, MOTOR_POSITION_RESET_C1, MOTOR_POSITION_RESET_C2,
          MOTOR_DELAY]
    rw [hb]
    simp only [Bool.false_eq_true, if_false]
    constructor
    · intro h
      cases hen : e.enable clock fuel log with
      | none => simp [hen] at h
      | some x =>
        obtain ⟨k, hk, hset, hmin, hx⟩ := (enable_eq_some_iff e clock fuel log x he).mp hen
        simp only [hen, Option.map_some', Option.some.injEq] at h
        refine ⟨DcExpansion.readings clock 0 k ++ [HwEvent.write8 e.address 0x25],
          ⟨k, hk, by simpa [DcExpansion.settled, EXPANSION_RESET_TIME] using hset, ?_, rfl⟩,
          ?_, ?_, ?_⟩
        · intro i hi
          have := hmin i hi
          simpa [DcExpansion.settled, EXPANSION_RESET_TIME] using this
        · rw [← h, hx]; rfl
        · rw [← h]
        · rw [← h, hx]
          simp [EXPANSION_ENABLE]
    · rintro ⟨sent, ⟨k, hk, hset, hmin, hs⟩, _, _, hr⟩
      have hen : e.enable clock fuel log =
          some ({ e with _enabled := true },
            log ++ DcExpansion.readings clock 0 k ++
              [HwEvent.write8 e.address EXPANSION_ENABLE]) := by
        rw [enable_eq_some_iff e clock fuel log _ he]
        refine ⟨k, hk, by simpa [DcExpansion.settled, EXPANSION_RESET_TIME] using hset, ?_, rfl⟩
        intro i hi
        have := hmin i hi
        simpa [DcExpansion.settled, EXPANSION_RESET_TIME] using this
      rw [hen, hr, hs]
      simp [EXPANSION_ENABLE]

/-- C16: `enable()` is idempotent. On an enabled controller it returns at
once with the controller and the bus log unchanged: no command, no clock
reading. Any number `n + 1` of consecutive calls leaves the controller and
the log as the first call alone does. On a controller that was not enabled
these calls return exactly when one of the clock readings is at least 1000
after `_resetTime`, and then they have put on the bus the readings up to the
first such one followed by the enable command 0x25, and nothing else: the
enable command is sent exactly once. -/
theorem enable_idempotent (e : DcExpansion) (clock : Nat → Nat) (fuel : Nat) (log : HwLog)
    (n : Nat) :
    (e._enabled = true → e.enable clock fuel log = some (e, log)) ∧
    (e._enabled = true → DcExpansion.enableRepeat clock fuel n e log = some (e, log)) ∧
    DcExpansion.enableRepeat clock fuel (n + 1) e log = e.enable clock fuel log ∧
    (e._enabled = false → ∀ r,
      (DcExpansion.enableRepeat clock fuel (n + 1) e log = some r ↔
        ∃ k, k < fuel ∧
          1000 ≤ subUInt32 (toUInt32 (clock k)) e._resetTime ∧
          (∀ i, i < k → subUInt32 (toUInt32 (clock i)) e._resetTime < 1000) ∧
          r = ({ e with _enabled := true },
            log ++ (DcExpansion.readings clock 0 k ++ [HwEvent.write8 e.address 0x25])))) ∧
    (∀ k, (DcExpansion.readings clock 0 k ++ [HwEvent.write8 e.address 0x25]).count
      (HwEvent.write8 e.address 0x25) = 1) := by
  have hrep : DcExpansion.enableRepeat clock fuel (n + 1) e log = e.enable clock fuel log := by
    simp only [DcExpansion.enableRepeat]
    cases hen : e.enable clock fuel log with
    | none => rfl
    | some x =>
      exact enableRepeat_of_enabled clock fuel n x.1 x.2
        (enabled_after_enable e clock fuel log x hen)
  refine ⟨enable_of_enabled e clock fuel log, enableRepeat_of_enabled clock fuel n e log,
    hrep, ?_, ?_⟩
  · intro he r
    rw [hrep, enable_eq_some_iff e clock fuel log r he]
    constructor
    · rintro ⟨k, hk, hset, hmin, hr⟩
      refine ⟨k, hk, by simpa [DcExpansion.settled, EXPANSION_RESET_TIME] using hset, ?_, ?_⟩
      · intro i hi
        have := hmin i hi
        simpa [DcExpansion.settled, EXPANSION_RESET_TIME] using this
      · rw [hr]
        simp [EXPANSION_ENABLE]
    · rintro ⟨k, hk, hset, hmin, hr⟩
      refine ⟨k, hk, by simpa [DcExpansion.settled, EXPANSION_RESET_TIME] using hset, ?_, ?_⟩
      · intro i hi
        have := hmin i hi
        simpa [DcExpansion.settled, EXPANSION_RESET_TIME] using this
      · rw [hr]
        simp [EXPANSION_ENABLE]
  · intro k
    rw [List.count_append, count_write8_readings]
    simp

/-- C16 in the scenario of the spec: controller at address 0x10, `begin()` at
clock reading 0, then three consecutive `enable()` calls from reading 500 on.
They return, and the bus has received the readings 500, ..., 1000 and one
enable command; three more calls on the enabled controller add nothing. -/
theorem enable_idempotent_witness :
    DcExpansion.enableRepeat (fun i => 500 + i) 600 3
        (DcExpansion.begin (DcExpansion.new 0x10) 0 []).1
        (DcExpansion.begin (DcExpansion.new 0x10) 0 []).2 =
      some ({ _enabled := true, _resetTime := 0, address := 0x10 },
        (DcExpansion.begin (DcExpansion.new 0x10) 0 []).2 ++
          (DcExpansion.readings (fun i => 500 + i) 0 500 ++ [HwEvent.write8 0x10 0x25])) ∧
    (DcExpansion.readings (fun i => 500 + i) 0 500 ++ [HwEvent.write8 0x10 0x25]).count
      (HwEvent.write8 0x10 0x25) = 1 ∧
    DcExpansion.enableRepeat (fun i => 500 + i) 600 3
        { _enabled := true, _resetTime := 0, address := 0x10 }
        ((DcExpansion.begin (DcExpansion.new 0x10) 0 []).2 ++
          (DcExpansion.readings (fun i => 500 + i) 0 500 ++ [HwEvent.write8 0x10 0x25])) =
      some ({ _enabled := true, _resetTime := 0, address := 0x10 },
        (DcExpansion.begin (DcExpansion.new 0x10) 0 []).2 ++
          (DcExpansion.readings (fun i => 500 + i) 0 500 ++ [HwEvent.write8 0x10 0x25])) :=
  ⟨((enable_idempotent (DcExpansion.begin (DcExpansion.new 0x10) 0 []).1 (fun i => 500 + i) 600
        (DcExpansion.begin (DcExpansion.new 0x10) 0 []).2 2).2.2.2.1 rfl _).mpr
      ⟨500, by decide, by decide, fun i hi => by
        simp only [DcExpansion.begin, DcExpansion.new, subUInt32, toUInt32]
        omega, rfl⟩,
    (enable_idempotent (DcExpansion.begin (DcExpansion.new 0x10) 0 []).1 (fun i => 500 + i) 600
      (DcExpansion.begin (DcExpansion.new 0x10) 0 []).2 2).2.2.2.2 500,
    (enable_idempotent { _enabled := true, _resetTime := 0, address := 0x10 }
      (fun i => 500 + i) 600 _ 3).2.1 rfl⟩

end BeginAndIdempotence

section Current

/-- On a target whose `int` has more than 16 bits, a value of magnitude below
`2^16` is kept by `int` arithmetic. -/
theorem toIntN_of_small (intBits : Nat) (n : Int) (hw : 16 < intBits) (h1 : -65536 ≤ n)
    (h2 : n < 65536) : toIntN intBits n = n := by
  obtain ⟨k, rfl⟩ : ∃ k, intBits = k + 17 := ⟨intBits - 17, by omega⟩
  have hP : (65536 : Int) ≤ 2 ^ (k + 16) := by
    have : (2 : Int) ^ 16 ≤ 2 ^ (k + 16) :=
      pow_le_pow_right₀ (by norm_num) (by omega)
    simpa using this
  have h2P : (2 : Int) ^ (k + 17) = 2 * 2 ^ (k + 16) := by
    rw [pow_succ]; ring
  unfold toIntN
  rw [show k + 17 - 1 = k + 16 by omega, h2P, Int.emod_eq_of_lt (by omega) (by omega)]
  ring

theorem toInt16_range (n : Int) : -32768 ≤ toInt16 n ∧ toInt16 n ≤ 32767 := by
  unfold toInt16; omega

/-- C17: on a target whose `int` has more than 16 bits (so that the operands
promoted to `int` do not overflow), `readCurrent()` returns the `float`
quotient of `s * toInt16 (b0*256 + b1)` by 1000, where `toInt16` reads the
big-endian 16-bit value as two's complement, `s` is -1 for a reversed motor
direction and 1 otherwise, and the product is the exact integer product, also
for the value -32768. -/
theorem readCurrent_value (F : FloatModel) (intBits : Nat) (m : DcMotor) (e : DcExpansion)
    (buf : Buf2) (log : HwLog) (hw : 16 < intBits) :
    (DcMotor.readCurrent F intBits m e buf log).1 =
      F.div (((if m._motorDirerction = REVERSE then -1 else 1) *
        toInt16 ((buf.b0.val : Int) * 256 + (buf.b1.val : Int)) : Int) : ℚ) 1000 := by
  have hb0 := buf.b0.isLt
  have hb1 := buf.b1.isLt
  have hr := toInt16_range ((buf.b0.val : Int) * 256 + (buf.b1.val : Int))
  have hs : -32768 ≤ toInt16 ((buf.b0.val : Int) * 256 + (buf.b1.val : Int)) *
        (if m._motorDirerction = true then -1 else 1) ∧
      toInt16 ((buf.b0.val : Int) * 256 + (buf.b1.val : Int)) *
        (if m._motorDirerction = true then -1 else 1) ≤ 32768 := by
    split_ifs <;> omega
  simp only [DcMotor.readCurrent, REVERSE]
  rw [toIntN_of_small intBits ((buf.b0.val : Int) * 256) hw (by omega) (by omega),
    toIntN_of_small intBits ((buf.b0.val : Int) * 256 + (buf.b1.val : Int)) hw (by omega)
      (by omega),
    toIntN_of_small intBits _ hw (by omega) (by omega),
    F.exact_int _ (by omega) (by omega), mul_comm]

/-- C17 at a concrete input: 32-bit `int`, reversed motor, response bytes
`[0x80, 0x00]`, that is the value -32768, and arithmetic without rounding
error: the current is +32.768. -/
theorem readCurrent_value_witness :
    (16 < 32) ∧
    (((if (DcMotor.new 1 BRAKE REVERSE FORWARD 1)._motorDirerction = REVERSE then -1 else 1) *
      toInt16 (((⟨0x80, 0x00⟩ : Buf2).b0.val : Int) * 256 +
        ((⟨0x80, 0x00⟩ : Buf2).b1.val : Int)) : Int) = 32768) ∧
    (DcMotor.readCurrent exactFloat 32 (DcMotor.new 1 BRAKE REVERSE FORWARD 1)
        (DcExpansion.new 0x10) ⟨0x80, 0x00⟩ []).1 =
      exactFloat.div
        (((if (DcMotor.new 1 BRAKE REVERSE FORWARD 1)._motorDirerction = REVERSE then -1 else 1) *
          toInt16 (((⟨0x80, 0x00⟩ : Buf2).b0.val : Int) * 256 +
            ((⟨0x80, 0x00⟩ : Buf2).b1.val : Int)) : Int) : ℚ) 1000 :=
  ⟨by decide, by decide,
    readCurrent_value exactFloat 32 (DcMotor.new 1 BRAKE REVERSE FORWARD 1)
      (DcExpansion.new 0x10) ⟨0x80, 0x00⟩ [] (by decide)⟩

/-- The boundary of C17: on a target whose `int` has 16 bits, for a reversed
motor and the response bytes `[0x80, 0x00]`, the product `-32768 * -1`
overflows, which is undefined in C++; under the wrap-around of the model it
stays -32768 and the current read is -32.768. -/
theorem readCurrent_int16_target :
    (DcMotor.readCurrent exactFloat 16 (DcMotor.new 1 BRAKE REVERSE FORWARD 1)
      (DcExpansion.new 0x10) ⟨0x80, 0x00⟩ []).1 = (-32768 : ℚ) / 1000 := by
  have h : toIntN 16 (toInt16 (toIntN 16 (toIntN 16 (((0x80 : Byte).val : Int) * 256)
      + ((0x00 : Byte).val : Int))) * (-1)) = -32768 := by decide
  simp only [DcMotor.readCurrent, DcMotor.new, REVERSE, if_true, exactFloat, FloatModel.div, h]
  norm_num

end Current

section WireValues

end WireValues
